import Mathlib

/-!
# Verification of the `logctx` log-context-search core

Shallow embedding of `src/log-context-search/index.js`:

* the record assembler (`createRecord`, `appendLine`, the scan loop of
  `processFile`),
* the filter predicate (`createFilter`),
* the context-window algorithm (the `finalizeRecord` closures of
  `processFile` and `processIndex`),
* the index writer (`serializeRecordForIndex`, the meta line) and the
  index reader (`processIndex`).

Modelling conventions:

* The two regular expressions built by `buildParser` (the configurable
  start/timestamp pattern and the fixed header pattern) and the JS
  `Date` parser are abstracted as parameters of a `LogParser` structure:
  the claims under verification quantify over every parser
  configuration, and none depends on the concrete pattern.
* JS strings become Lean `String`s; `indexOf`, `slice`, `trim`,
  `includes`, `toLowerCase`/`toUpperCase`, `join`, `split` are modelled
  with explicit executable functions below.
* The mutable `_printed` flag lives on JS record objects, shared between
  the before-context buffer and the current record via object identity.
  Records are identified by their unique `index` (assigned before the
  flag is ever consulted), so the flag is modelled as the set
  `printedSet` of printed record indices carried in the window state.
  The memoised `_textCache`/`_lowerCache` fields are semantically the
  pure function `getText` and are not part of the state.
* The `timestamp` (JS `Date`) field of a raw record is never read by the
  filter, the printer or the index writer, and is therefore omitted; the
  parsed epoch value `timestampMs` is kept.
* A line of an index file is modelled by its parse status
  (`IndexLine`): the empty string (falsy in JS), a line on which
  `JSON.parse` throws, a parsed object with `type === 'meta'`, or a
  parsed record object.  JSON text serialisation itself is I/O fidelity
  outside the embedding.
-/

/-- One assembled log record (the JS record object built by
`createRecord`/`appendLine` and finalized by `finalizeRecord`). -/
structure Rec where
  index : Nat
  startLine : Nat
  endLine : Nat
  timestampRaw : Option String
  timestampMs : Option Int
  level : Option String
  pid : Option String
  thread : Option String
  location : Option String
  message : String
  messageLines : List String
  lines : List String
deriving DecidableEq

instance : Inhabited Rec :=
  ⟨{ index := 0, startLine := 0, endLine := 0, timestampRaw := none,
     timestampMs := none, level := none, pid := none, thread := none,
     location := none, message := "", messageLines := [], lines := [] }⟩

/-- The role tag passed to the Printer: `'match'`, `'context-before'`,
`'context-after'`. -/
inductive Role where
  | matched
  | before
  | after
deriving DecidableEq

/-- `leadsWith needle hay` : does `hay` start with `needle`?
(JS `String.prototype.startsWith` on char lists.) -/
def leadsWith : List Char → List Char → Bool
  | [], _ => true
  | _ :: _, [] => false
  | n :: ns, h :: hs => n == h && leadsWith ns hs

/-- First index at which `needle` occurs in `hay`
(JS `String.prototype.indexOf`, `none` for `-1`). -/
def findSubIdx (needle : List Char) : List Char → Option Nat
  | [] => if needle.isEmpty then some 0 else none
  | c :: hs =>
      if leadsWith needle (c :: hs) then some 0
      else (findSubIdx needle hs).map (· + 1)

/-- JS `haystack.includes(needle)`. -/
def containsSub (hay needle : String) : Bool :=
  (findSubIdx needle.data hay.data).isSome

/-- JS `String.prototype.toLowerCase` (ASCII). -/
def lowerStr (s : String) : String := s.map Char.toLower

/-- JS `String.prototype.toUpperCase` (ASCII). -/
def upperStr (s : String) : String := s.map Char.toUpper

/-- JS `String.prototype.trim`: drop leading and trailing whitespace. -/
def trimStr (s : String) : String :=
  String.mk (((s.data.dropWhile Char.isWhitespace).reverse.dropWhile
    Char.isWhitespace).reverse)

/-- `splitLocationMessage(rest)` from `buildParser`: search for `" : "`
first, fall back to `": "`, otherwise the whole (trimmed) trailing text
is the location with empty message. -/
def splitLocationMessage (rest : String) : Option String × String :=
  if rest = "" then (none, "")
  else
    let cs := rest.data
    match findSubIdx [' ', ':', ' '] cs with
    | some i =>
        let location := trimStr (String.mk (cs.take i))
        let message := trimStr (String.mk (cs.drop (i + 3)))
        ((if location = "" then none else some location), message)
    | none =>
        match findSubIdx [':', ' '] cs with
        | some i =>
            let location := trimStr (String.mk (cs.take i))
            let message := trimStr (String.mk (cs.drop (i + 2)))
            ((if location = "" then none else some location), message)
        | none =>
            let t := trimStr rest
            ((if t = "" then none else some t), "")

/-- The pieces captured by the header regular expression
`^(TIMESTAMP)\s+([A-Z]+)\s+(\d+)\s+-+\s+\[([^\]]+)\]\s+(.*)$`. -/
structure HeaderParts where
  timestampRaw : String
  level : String
  pid : String
  thread : String
  rest : String
deriving DecidableEq

/-- The parser closure produced by `buildParser(config)`.
`headerMatch` is the header regex match, `startMatch` the start/timestamp
regex match (`some` holds the matched text, i.e. `match[0]`), `dateParse`
the JS `Date`-based timestamp parsing of a non-empty raw string. -/
structure LogParser where
  headerMatch : String → Option HeaderParts
  startMatch : String → Option String
  dateParse : String → Option Int

/-- `parser.isStart(line)` — `startRegex.test(line)`. -/
def isStart (P : LogParser) (line : String) : Bool :=
  (P.startMatch line).isSome

/-- `parseTimestamp(raw)` from `buildParser`: falsy raw (absent or empty)
gives no timestamp. -/
def parseTimestampMs (P : LogParser) (raw : Option String) : Option Int :=
  match raw with
  | none => none
  | some s => if s = "" then none else P.dateParse s

/-- `createRecord(line, lineNumber)` from `buildParser`. -/
def createRecord (P : LogParser) (line : String) (lineNumber : Nat) : Rec :=
  match P.headerMatch line with
  | some h =>
      let sp := splitLocationMessage h.rest
      { index := 0, startLine := lineNumber, endLine := lineNumber,
        timestampRaw := some h.timestampRaw,
        timestampMs := parseTimestampMs P (some h.timestampRaw),
        level := some h.level, pid := some h.pid, thread := some h.thread,
        location := sp.1, message := sp.2,
        messageLines := if sp.2 = "" then [] else [sp.2],
        lines := [line] }
  | none =>
      let tsRaw := P.startMatch line
      let message :=
        match tsRaw with
        | some ts => if ts = "" then line else trimStr (line.drop ts.length)
        | none => line
      { index := 0, startLine := lineNumber, endLine := lineNumber,
        timestampRaw := tsRaw,
        timestampMs := parseTimestampMs P tsRaw,
        level := none, pid := none, thread := none,
        location := none, message := message,
        messageLines := if message = "" then [] else [message],
        lines := [line] }

/-- `appendLine(record, line, lineNumber)` from `buildParser`. -/
def appendLine (r : Rec) (line : String) (lineNumber : Nat) : Rec :=
  { r with lines := r.lines ++ [line],
           messageLines := r.messageLines ++ [line],
           endLine := lineNumber }

/-- The validated primitive filter arguments handed to `createFilter`. -/
structure FilterArgs where
  levels : List String
  keywords : List String
  thread : Option String
  fromMs : Option Int
  toMs : Option Int
  ignoreCase : Bool

/-- The `getText` accessor of `processFile`/`processIndex` (the memoised
caches compute exactly this). -/
def getText (r : Rec) (lowercase : Bool) : String :=
  if lowercase then lowerStr (String.intercalate "\n" r.lines)
  else String.intercalate "\n" r.lines

/-- `createFilter({levels, keywords, thread, fromMs, toMs, ignoreCase})`
applied to a record.  Falsy-JS details kept: an empty thread option or
empty record level behave as absent. -/
def createFilter (a : FilterArgs) (r : Rec) : Bool :=
  let checkFrom :=
    match a.fromMs with
    | none => true
    | some f =>
        match r.timestampMs with
        | none => false
        | some t => decide (¬ t < f)
  let checkTo :=
    match a.toMs with
    | none => true
    | some u =>
        match r.timestampMs with
        | none => false
        | some t => decide (¬ u < t)
  let checkLevel :=
    if a.levels = [] then true
    else
      match r.level with
      | none => false
      | some lv => if lv = "" then false else (a.levels.map upperStr).contains (upperStr lv)
  let threadNeedle : Option String :=
    match a.thread with
    | none => none
    | some t => if t = "" then none else some (if a.ignoreCase then lowerStr t else t)
  let checkThread :=
    match threadNeedle with
    | none => true
    | some needle =>
        let haystack :=
          match r.thread with
          | none => ""
          | some th => if a.ignoreCase then lowerStr th else th
        containsSub haystack needle
  let checkKeyword :=
    if a.keywords = [] then true
    else
      (a.keywords.map (fun kw => if a.ignoreCase then lowerStr kw else kw)).any
        (fun needle => containsSub (getText r a.ignoreCase) needle)
  checkFrom && checkTo && checkLevel && checkThread && checkKeyword

/-- The JSON object written per record by `serializeRecordForIndex`,
and — on the reading side — the fields `processIndex` looks up on a
parsed record object (`none` models an absent/null field; `pTime` and
`pMessageLines` are read back but never written by the serializer). -/
structure IndexPayload where
  pIndex : Option Nat
  pStartLine : Option Nat
  pEndLine : Option Nat
  pTimestampRaw : Option String
  pTime : Option String
  pTimestampMs : Option Int
  pLevel : Option String
  pPid : Option String
  pThread : Option String
  pLocation : Option String
  pMessage : Option String
  pMessageLines : Option (List String)
  pLines : Option (List String)
deriving DecidableEq

/-- `serializeRecordForIndex(record)`. -/
def serializeRecordForIndex (r : Rec) : IndexPayload :=
  { pIndex := some r.index, pStartLine := some r.startLine,
    pEndLine := some r.endLine, pTimestampRaw := r.timestampRaw,
    pTime := none, pTimestampMs := r.timestampMs, pLevel := r.level,
    pPid := r.pid, pThread := r.thread, pLocation := r.location,
    pMessage := some r.message, pMessageLines := none,
    pLines := some r.lines }

/-- The record object `processIndex` reconstructs from a parsed entry
(lines 499–517 of the source, with the `??` defaults). -/
def recordOfPayload (p : IndexPayload) : Rec :=
  { index := p.pIndex.getD 0,
    startLine := p.pStartLine.getD 0,
    endLine := p.pEndLine.getD (p.pStartLine.getD 0),
    timestampRaw := (p.pTimestampRaw).orElse (fun _ => p.pTime),
    timestampMs := p.pTimestampMs,
    level := p.pLevel, pid := p.pPid, thread := p.pThread,
    location := p.pLocation,
    message := p.pMessage.getD "",
    messageLines :=
      match p.pMessageLines with
      | some ls => ls
      | none =>
          match p.pMessage with
          | some m => if m = "" then [] else m.splitOn "\n"
          | none => [],
    lines := p.pLines.getD [] }

/-- The meta object written as the first index line. -/
structure MetaPayload where
  file : String
  size : Option Int
  mtimeMs : Option Int
  generatedAt : String
deriving DecidableEq

/-- One line of an index file, by parse status: the empty string, a line
`JSON.parse` rejects, a parsed object with `type === 'meta'`, or a
parsed record object. -/
inductive IndexLine where
  | blank
  | malformed
  | meta (m : MetaPayload)
  | entry (p : IndexPayload)
deriving DecidableEq

/-- The error thrown for a malformed index entry: it carries the index
path and the 1-based line number
(`Malformed index entry at ${indexPath}:${lineNumber}`). -/
structure IndexError where
  path : String
  lineNumber : Nat
deriving DecidableEq

/-- The state threaded through the shared filtering/windowing logic
(the `finalizeRecord` closures): the before-context buffer, the
after-context countdown, the counters, the set of already printed record
indices (the `_printed` flags), the Printer call sequence so far, and —
as the run's observable trace — the finalized records in order. -/
structure WinState where
  beforeBuffer : List Rec
  afterCountdown : Nat
  recordIndex : Nat
  totalRecords : Nat
  matchCount : Nat
  printedSet : List Nat
  outputs : List (Role × Rec)
  records : List Rec
deriving DecidableEq

def initWin : WinState :=
  { beforeBuffer := [], afterCountdown := 0, recordIndex := 0,
    totalRecords := 0, matchCount := 0, printedSet := [],
    outputs := [], records := [] }

/-- The head of `finalizeRecord`: assign `record.index`, and on the raw
path (`joinMsg = true`) also rebuild `record.message` from
`messageLines`. -/
def finalizeIntake (joinMsg : Bool) (r : Rec) (i : Nat) : Rec :=
  let r1 := { r with index := i }
  if joinMsg then
    { r1 with
        message :=
          if r1.messageLines.length > 0 then String.intercalate "\n" r1.messageLines
          else "" }
  else r1

/-- One iteration of the before-context loop: print an unprinted
buffered record with role `context-before` and mark it printed. -/
def emitBeforeStep (st : WinState) (ctx : Rec) : WinState :=
  if ctx.index ∈ st.printedSet then st
  else { st with outputs := st.outputs ++ [(Role.before, ctx)],
                 printedSet := ctx.index :: st.printedSet }

/-- `if (isMatch && contextBeforeCount > 0) { for (ctx of beforeBuffer) ... }`. -/
def phase1 (isM : Bool) (B : Nat) (st : WinState) : WinState :=
  if isM = true ∧ 0 < B then st.beforeBuffer.foldl emitBeforeStep st else st

/-- Printing the current record as match or after-context. -/
def phase2 (isM : Bool) (r : Rec) (st : WinState) : WinState :=
  if (isM = true ∨ (isM = false ∧ 0 < st.afterCountdown)) ∧ r.index ∉ st.printedSet then
    { st with outputs := st.outputs ++ [((if isM then Role.matched else Role.after), r)],
              printedSet := r.index :: st.printedSet }
  else st

/-- Match count plus countdown update: reset to `A` on a match,
otherwise decrement a positive countdown. -/
def phase3 (isM : Bool) (A : Nat) (st : WinState) : WinState :=
  if isM = true then { st with matchCount := st.matchCount + 1, afterCountdown := A }
  else if 0 < st.afterCountdown then { st with afterCountdown := st.afterCountdown - 1 }
  else st

/-- Push the record into the before-context buffer, evicting the oldest
entry on overflow. -/
def phase4 (B : Nat) (r : Rec) (st : WinState) : WinState :=
  if 0 < B then
    if B < (st.beforeBuffer ++ [r]).length then
      { st with beforeBuffer := (st.beforeBuffer ++ [r]).tail }
    else { st with beforeBuffer := st.beforeBuffer ++ [r] }
  else st

/-- One `finalizeRecord(record)` call (shared shape of the two
closures; `joinMsg` distinguishes the raw path, which rebuilds
`message`, from the index path, which keeps the stored one).  Returns
the new state together with the finalized record (what the raw path
hands to the index writer). -/
def windowStep (F : Rec → Bool) (B A : Nat) (joinMsg : Bool)
    (st : WinState) (r0 : Rec) : WinState × Rec :=
  let r := finalizeIntake joinMsg r0 (st.recordIndex + 1)
  let st1 := { st with recordIndex := st.recordIndex + 1,
                       totalRecords := st.totalRecords + 1 }
  let isM := F r
  let st2 := phase4 B r (phase3 isM A (phase2 isM r (phase1 isM B st1)))
  ({ st2 with records := st2.records ++ [r] }, r)

/-- Folding `finalizeRecord` over a list of incoming records. -/
def windowFoldJ (F : Rec → Bool) (B A : Nat) (joinMsg : Bool)
    (st : WinState) (rs : List Rec) : WinState :=
  rs.foldl (fun s r => (windowStep F B A joinMsg s r).1) st

/-- The state of `processFile`: window state, the in-flight accumulator
(`current`), the input line counter, and the written index lines. -/
structure FileState where
  win : WinState
  current : Option Rec
  lineNumber : Nat
  indexLines : List IndexLine
deriving DecidableEq

/-- `await finalizeRecord(current)` on the raw path, including the
optional index append. -/
def finalizeRecordFile (F : Rec → Bool) (B A : Nat) (writeIndex : Bool)
    (st : FileState) : FileState :=
  match st.current with
  | none => st
  | some r0 =>
      let res := windowStep F B A true st.win r0
      { st with
          win := res.1, current := none,
          indexLines :=
            if writeIndex then
              st.indexLines ++ [IndexLine.entry (serializeRecordForIndex res.2)]
            else st.indexLines }

/-- One iteration of `for await (const line of rl)` in `processFile`. -/
def processFileLine (P : LogParser) (F : Rec → Bool) (B A : Nat)
    (writeIndex : Bool) (st : FileState) (line : String) : FileState :=
  let st := { st with lineNumber := st.lineNumber + 1 }
  if isStart P line then
    let st := finalizeRecordFile F B A writeIndex st
    { st with current := some (createRecord P line st.lineNumber) }
  else
    match st.current with
    | some cur => { st with current := some (appendLine cur line st.lineNumber) }
    | none => { st with current := some (createRecord P line st.lineNumber) }

/-- `processFile`: scan the raw lines, finalize the trailing record.
When `writeIndex` is set the meta line is written first. -/
def processFile (P : LogParser) (F : Rec → Bool) (B A : Nat)
    (writeIndex : Bool) (m : MetaPayload) (lines : List String) : FileState :=
  let st0 : FileState :=
    { win := initWin, current := none, lineNumber := 0,
      indexLines := if writeIndex then [IndexLine.meta m] else [] }
  finalizeRecordFile F B A writeIndex
    (lines.foldl (processFileLine P F B A writeIndex) st0)

/-- The state of `processIndex`: window state, the captured meta line,
the 1-based index line counter. -/
structure IdxState where
  win : WinState
  metaSeen : Option MetaPayload
  lineNumber : Nat
deriving DecidableEq

/-- One iteration of the `processIndex` line loop.  A thrown
`Malformed index entry` error aborts the loop: once the error component
is set, remaining lines are not processed (already-produced output stays
in the state). -/
def processIndexLine (F : Rec → Bool) (B A : Nat) (path : String)
    (acc : IdxState × Option IndexError) (l : IndexLine) :
    IdxState × Option IndexError :=
  match acc with
  | (st, some e) => (st, some e)
  | (st, none) =>
      let st := { st with lineNumber := st.lineNumber + 1 }
      match l with
      | IndexLine.blank => (st, none)
      | IndexLine.malformed => (st, some ⟨path, st.lineNumber⟩)
      | IndexLine.meta m => ({ st with metaSeen := some m }, none)
      | IndexLine.entry p =>
          ({ st with win := (windowStep F B A false st.win (recordOfPayload p)).1 }, none)

/-- `processIndex`: read the index lines back through the same filter
and windowing. -/
def processIndex (F : Rec → Bool) (B A : Nat) (path : String)
    (ls : List IndexLine) : IdxState × Option IndexError :=
  ls.foldl (processIndexLine F B A path) (⟨initWin, none, 0⟩, none)

/-- The record fields the Printer renders (`createPrinter`'s payload:
`role, index, startLine, endLine, time, level, thread, location,
message, lines`; the text mode renders a subset). -/
structure PrinterPayload where
  vIndex : Nat
  vStartLine : Nat
  vEndLine : Nat
  vTime : Option String
  vLevel : Option String
  vThread : Option String
  vLocation : Option String
  vMessage : String
  vLines : List String
deriving DecidableEq

def printerPayload (r : Rec) : PrinterPayload :=
  ⟨r.index, r.startLine, r.endLine, r.timestampRaw, r.level, r.thread,
   r.location, r.message, r.lines⟩

/-- The Printer call sequence as the Printer observes it. -/
def printedTrace (st : WinState) : List (Role × PrinterPayload) :=
  st.outputs.map (fun o => (o.1, printerPayload o.2))

/-! ## Basic projections of the windowing phases -/

theorem finalizeIntake_index (jm : Bool) (r : Rec) (i : Nat) :
    (finalizeIntake jm r i).index = i := by
  unfold finalizeIntake; split <;> rfl

theorem finalizeIntake_lines (jm : Bool) (r : Rec) (i : Nat) :
    (finalizeIntake jm r i).lines = r.lines := by
  unfold finalizeIntake; split <;> rfl

theorem emitBeforeStep_afterCountdown (st : WinState) (c : Rec) :
    (emitBeforeStep st c).afterCountdown = st.afterCountdown := by
  unfold emitBeforeStep; split <;> rfl

theorem emitBeforeStep_recordIndex (st : WinState) (c : Rec) :
    (emitBeforeStep st c).recordIndex = st.recordIndex := by
  unfold emitBeforeStep; split <;> rfl

theorem emitBeforeStep_totalRecords (st : WinState) (c : Rec) :
    (emitBeforeStep st c).totalRecords = st.totalRecords := by
  unfold emitBeforeStep; split <;> rfl

theorem emitBeforeStep_matchCount (st : WinState) (c : Rec) :
    (emitBeforeStep st c).matchCount = st.matchCount := by
  unfold emitBeforeStep; split <;> rfl

theorem emitBeforeStep_beforeBuffer (st : WinState) (c : Rec) :
    (emitBeforeStep st c).beforeBuffer = st.beforeBuffer := by
  unfold emitBeforeStep; split <;> rfl

theorem emitBeforeStep_records (st : WinState) (c : Rec) :
    (emitBeforeStep st c).records = st.records := by
  unfold emitBeforeStep; split <;> rfl

theorem emitBeforeFold_afterCountdown (ctxs : List Rec) (st : WinState) :
    (ctxs.foldl emitBeforeStep st).afterCountdown = st.afterCountdown := by
  induction ctxs generalizing st with
  | nil => rfl
  | cons c cs ih => rw [List.foldl_cons, ih, emitBeforeStep_afterCountdown]

theorem emitBeforeFold_recordIndex (ctxs : List Rec) (st : WinState) :
    (ctxs.foldl emitBeforeStep st).recordIndex = st.recordIndex := by
  induction ctxs generalizing st with
  | nil => rfl
  | cons c cs ih => rw [List.foldl_cons, ih, emitBeforeStep_recordIndex]

theorem emitBeforeFold_totalRecords (ctxs : List Rec) (st : WinState) :
    (ctxs.foldl emitBeforeStep st).totalRecords = st.totalRecords := by
  induction ctxs generalizing st with
  | nil => rfl
  | cons c cs ih => rw [List.foldl_cons, ih, emitBeforeStep_totalRecords]

theorem emitBeforeFold_matchCount (ctxs : List Rec) (st : WinState) :
    (ctxs.foldl emitBeforeStep st).matchCount = st.matchCount := by
  induction ctxs generalizing st with
  | nil => rfl
  | cons c cs ih => rw [List.foldl_cons, ih, emitBeforeStep_matchCount]

theorem emitBeforeFold_beforeBuffer (ctxs : List Rec) (st : WinState) :
    (ctxs.foldl emitBeforeStep st).beforeBuffer = st.beforeBuffer := by
  induction ctxs generalizing st with
  | nil => rfl
  | cons c cs ih => rw [List.foldl_cons, ih, emitBeforeStep_beforeBuffer]

theorem emitBeforeFold_records (ctxs : List Rec) (st : WinState) :
    (ctxs.foldl emitBeforeStep st).records = st.records := by
  induction ctxs generalizing st with
  | nil => rfl
  | cons c cs ih => rw [List.foldl_cons, ih, emitBeforeStep_records]

theorem phase1_afterCountdown (isM : Bool) (B : Nat) (st : WinState) :
    (phase1 isM B st).afterCountdown = st.afterCountdown := by
  unfold phase1; split
  · exact emitBeforeFold_afterCountdown _ _
  · rfl

theorem phase1_recordIndex (isM : Bool) (B : Nat) (st : WinState) :
    (phase1 isM B st).recordIndex = st.recordIndex := by
  unfold phase1; split
  · exact emitBeforeFold_recordIndex _ _
  · rfl

theorem phase1_totalRecords (isM : Bool) (B : Nat) (st : WinState) :
    (phase1 isM B st).totalRecords = st.totalRecords := by
  unfold phase1; split
  · exact emitBeforeFold_totalRecords _ _
  · rfl

theorem phase1_matchCount (isM : Bool) (B : Nat) (st : WinState) :
    (phase1 isM B st).matchCount = st.matchCount := by
  unfold phase1; split
  · exact emitBeforeFold_matchCount _ _
  · rfl

theorem phase1_beforeBuffer (isM : Bool) (B : Nat) (st : WinState) :
    (phase1 isM B st).beforeBuffer = st.beforeBuffer := by
  unfold phase1; split
  · exact emitBeforeFold_beforeBuffer _ _
  · rfl

theorem phase1_records (isM : Bool) (B : Nat) (st : WinState) :
    (phase1 isM B st).records = st.records := by
  unfold phase1; split
  · exact emitBeforeFold_records _ _
  · rfl

theorem phase2_afterCountdown (isM : Bool) (r : Rec) (st : WinState) :
    (phase2 isM r st).afterCountdown = st.afterCountdown := by
  unfold phase2; split <;> rfl

theorem phase2_recordIndex (isM : Bool) (r : Rec) (st : WinState) :
    (phase2 isM r st).recordIndex = st.recordIndex := by
  unfold phase2; split <;> rfl

theorem phase2_totalRecords (isM : Bool) (r : Rec) (st : WinState) :
    (phase2 isM r st).totalRecords = st.totalRecords := by
  unfold phase2; split <;> rfl

theorem phase2_matchCount (isM : Bool) (r : Rec) (st : WinState) :
    (phase2 isM r st).matchCount = st.matchCount := by
  unfold phase2; split <;> rfl

theorem phase2_beforeBuffer (isM : Bool) (r : Rec) (st : WinState) :
    (phase2 isM r st).beforeBuffer = st.beforeBuffer := by
  unfold phase2; split <;> rfl

theorem phase2_records (isM : Bool) (r : Rec) (st : WinState) :
    (phase2 isM r st).records = st.records := by
  unfold phase2; split <;> rfl

theorem phase3_recordIndex (isM : Bool) (A : Nat) (st : WinState) :
    (phase3 isM A st).recordIndex = st.recordIndex := by
  unfold phase3; split
  · rfl
  · split <;> rfl

theorem phase3_totalRecords (isM : Bool) (A : Nat) (st : WinState) :
    (phase3 isM A st).totalRecords = st.totalRecords := by
  unfold phase3; split
  · rfl
  · split <;> rfl

theorem phase3_beforeBuffer (isM : Bool) (A : Nat) (st : WinState) :
    (phase3 isM A st).beforeBuffer = st.beforeBuffer := by
  unfold phase3; split
  · rfl
  · split <;> rfl

theorem phase3_outputs (isM : Bool) (A : Nat) (st : WinState) :
    (phase3 isM A st).outputs = st.outputs := by
  unfold phase3; split
  · rfl
  · split <;> rfl

theorem phase3_printedSet (isM : Bool) (A : Nat) (st : WinState) :
    (phase3 isM A st).printedSet = st.printedSet := by
  unfold phase3; split
  · rfl
  · split <;> rfl

theorem phase3_records (isM : Bool) (A : Nat) (st : WinState) :
    (phase3 isM A st).records = st.records := by
  unfold phase3; split
  · rfl
  · split <;> rfl

theorem phase4_afterCountdown (B : Nat) (r : Rec) (st : WinState) :
    (phase4 B r st).afterCountdown = st.afterCountdown := by
  unfold phase4
  split
  · split <;> rfl
  · rfl

theorem phase4_recordIndex (B : Nat) (r : Rec) (st : WinState) :
    (phase4 B r st).recordIndex = st.recordIndex := by
  unfold phase4
  split
  · split <;> rfl
  · rfl

theorem phase4_totalRecords (B : Nat) (r : Rec) (st : WinState) :
    (phase4 B r st).totalRecords = st.totalRecords := by
  unfold phase4
  split
  · split <;> rfl
  · rfl

theorem phase4_matchCount (B : Nat) (r : Rec) (st : WinState) :
    (phase4 B r st).matchCount = st.matchCount := by
  unfold phase4
  split
  · split <;> rfl
  · rfl

theorem phase4_outputs (B : Nat) (r : Rec) (st : WinState) :
    (phase4 B r st).outputs = st.outputs := by
  unfold phase4
  split
  · split <;> rfl
  · rfl

theorem phase4_printedSet (B : Nat) (r : Rec) (st : WinState) :
    (phase4 B r st).printedSet = st.printedSet := by
  unfold phase4
  split
  · split <;> rfl
  · rfl

theorem phase4_records (B : Nat) (r : Rec) (st : WinState) :
    (phase4 B r st).records = st.records := by
  unfold phase4
  split
  · split <;> rfl
  · rfl

/-! ## Monotonicity: outputs and the printed set only grow -/

theorem nodup_append_one {α : Type} (l : List α) (a : α)
    (h : l.Nodup) (ha : a ∉ l) : (l ++ [a]).Nodup := by
  simp [List.nodup_append, h, ha]

theorem emitBeforeStep_outputs_mono (st : WinState) (c : Rec)
    {o : Role × Rec} (h : o ∈ st.outputs) : o ∈ (emitBeforeStep st c).outputs := by
  unfold emitBeforeStep; split
  · exact h
  · exact List.mem_append_left _ h

theorem emitBeforeStep_printedSet_mono (st : WinState) (c : Rec)
    {i : Nat} (h : i ∈ st.printedSet) : i ∈ (emitBeforeStep st c).printedSet := by
  unfold emitBeforeStep; split
  · exact h
  · exact List.mem_cons_of_mem _ h

theorem emitBeforeFold_outputs_mono (ctxs : List Rec) (st : WinState)
    {o : Role × Rec} (h : o ∈ st.outputs) :
    o ∈ (ctxs.foldl emitBeforeStep st).outputs := by
  induction ctxs generalizing st with
  | nil => exact h
  | cons c cs ih => exact ih _ (emitBeforeStep_outputs_mono _ _ h)

theorem emitBeforeFold_printedSet_mono (ctxs : List Rec) (st : WinState)
    {i : Nat} (h : i ∈ st.printedSet) :
    i ∈ (ctxs.foldl emitBeforeStep st).printedSet := by
  induction ctxs generalizing st with
  | nil => exact h
  | cons c cs ih => exact ih _ (emitBeforeStep_printedSet_mono _ _ h)

theorem phase1_outputs_mono (isM : Bool) (B : Nat) (st : WinState)
    {o : Role × Rec} (h : o ∈ st.outputs) : o ∈ (phase1 isM B st).outputs := by
  unfold phase1; split
  · exact emitBeforeFold_outputs_mono _ _ h
  · exact h

theorem phase1_printedSet_mono (isM : Bool) (B : Nat) (st : WinState)
    {i : Nat} (h : i ∈ st.printedSet) : i ∈ (phase1 isM B st).printedSet := by
  unfold phase1; split
  · exact emitBeforeFold_printedSet_mono _ _ h
  · exact h

theorem phase2_outputs_mono (isM : Bool) (r : Rec) (st : WinState)
    {o : Role × Rec} (h : o ∈ st.outputs) : o ∈ (phase2 isM r st).outputs := by
  unfold phase2; split
  · exact List.mem_append_left _ h
  · exact h

theorem phase2_printedSet_mono (isM : Bool) (r : Rec) (st : WinState)
    {i : Nat} (h : i ∈ st.printedSet) : i ∈ (phase2 isM r st).printedSet := by
  unfold phase2; split
  · exact List.mem_cons_of_mem _ h
  · exact h

theorem windowStep_outputs_mono (F : Rec → Bool) (B A : Nat) (jm : Bool)
    (st : WinState) (r0 : Rec) {o : Role × Rec} (h : o ∈ st.outputs) :
    o ∈ (windowStep F B A jm st r0).1.outputs := by
  simp only [windowStep, phase4_outputs, phase3_outputs]
  exact phase2_outputs_mono _ _ _ (phase1_outputs_mono _ _ _ h)

theorem windowStep_printedSet_mono (F : Rec → Bool) (B A : Nat) (jm : Bool)
    (st : WinState) (r0 : Rec) {i : Nat} (h : i ∈ st.printedSet) :
    i ∈ (windowStep F B A jm st r0).1.printedSet := by
  simp only [windowStep, phase4_printedSet, phase3_printedSet]
  exact phase2_printedSet_mono _ _ _ (phase1_printedSet_mono _ _ _ h)

theorem windowFoldJ_outputs_mono (F : Rec → Bool) (B A : Nat) (jm : Bool)
    (st : WinState) (rs : List Rec) {o : Role × Rec} (h : o ∈ st.outputs) :
    o ∈ (windowFoldJ F B A jm st rs).outputs := by
  induction rs generalizing st with
  | nil => exact h
  | cons r rs ih =>
      exact ih _ (windowStep_outputs_mono F B A jm st r h)

theorem windowFoldJ_printedSet_mono (F : Rec → Bool) (B A : Nat) (jm : Bool)
    (st : WinState) (rs : List Rec) {i : Nat} (h : i ∈ st.printedSet) :
    i ∈ (windowFoldJ F B A jm st rs).printedSet := by
  induction rs generalizing st with
  | nil => exact h
  | cons r rs ih =>
      exact ih _ (windowStep_printedSet_mono F B A jm st r h)

theorem windowStep_recordIndex (F : Rec → Bool) (B A : Nat) (jm : Bool)
    (st : WinState) (r0 : Rec) :
    (windowStep F B A jm st r0).1.recordIndex = st.recordIndex + 1 := by
  simp only [windowStep, phase4_recordIndex, phase3_recordIndex,
    phase2_recordIndex, phase1_recordIndex]

theorem windowStep_totalRecords (F : Rec → Bool) (B A : Nat) (jm : Bool)
    (st : WinState) (r0 : Rec) :
    (windowStep F B A jm st r0).1.totalRecords = st.totalRecords + 1 := by
  simp only [windowStep, phase4_totalRecords, phase3_totalRecords,
    phase2_totalRecords, phase1_totalRecords]

theorem windowStep_snd (F : Rec → Bool) (B A : Nat) (jm : Bool)
    (st : WinState) (r0 : Rec) :
    (windowStep F B A jm st r0).2 = finalizeIntake jm r0 (st.recordIndex + 1) := rfl

theorem windowStep_records (F : Rec → Bool) (B A : Nat) (jm : Bool)
    (st : WinState) (r0 : Rec) :
    (windowStep F B A jm st r0).1.records
      = st.records ++ [finalizeIntake jm r0 (st.recordIndex + 1)] := by
  simp only [windowStep, phase4_records, phase3_records, phase2_records, phase1_records]

theorem windowFoldJ_recordIndex (F : Rec → Bool) (B A : Nat) (jm : Bool)
    (st : WinState) (rs : List Rec) :
    (windowFoldJ F B A jm st rs).recordIndex = st.recordIndex + rs.length := by
  induction rs generalizing st with
  | nil => rfl
  | cons r rs ih =>
      show (windowFoldJ F B A jm ((windowStep F B A jm st r).1) rs).recordIndex = _
      rw [ih, windowStep_recordIndex]
      simp [Nat.add_comm, Nat.add_assoc, Nat.add_left_comm, List.length_cons]

/-! ## The at-most-once invariant -/

/-- Run invariant of the windowing state: printed indices, buffered
records and printed outputs all carry indices of already finalized
records; no index appears twice in the Printer call sequence; and every
printed output is recorded in the printed set. -/
def StInv (st : WinState) : Prop :=
  (∀ i ∈ st.printedSet, i ≤ st.recordIndex) ∧
  (∀ b ∈ st.beforeBuffer, b.index ≤ st.recordIndex) ∧
  (∀ o ∈ st.outputs, (o.2).index ≤ st.recordIndex) ∧
  ((st.outputs.map (fun o => (o.2).index)).Nodup) ∧
  (∀ o ∈ st.outputs, (o.2).index ∈ st.printedSet)

theorem stInv_initWin : StInv initWin := by
  refine ⟨?_, ?_, ?_, ?_, ?_⟩ <;> simp [initWin, StInv]

/-- The before-context loop preserves the bounded form of the invariant:
if everything in sight has index at most `M`, so does everything after
the loop, and no index is printed twice. -/
theorem emitBeforeFold_inv (M : Nat) (ctxs : List Rec) (st : WinState)
    (hctx : ∀ b ∈ ctxs, b.index ≤ M)
    (hset : ∀ i ∈ st.printedSet, i ≤ M)
    (hout : ∀ o ∈ st.outputs, (o.2).index ≤ M)
    (hnd : (st.outputs.map (fun o => (o.2).index)).Nodup)
    (hos : ∀ o ∈ st.outputs, (o.2).index ∈ st.printedSet) :
    (∀ i ∈ (ctxs.foldl emitBeforeStep st).printedSet, i ≤ M) ∧
    (∀ o ∈ (ctxs.foldl emitBeforeStep st).outputs, (o.2).index ≤ M) ∧
    ((ctxs.foldl emitBeforeStep st).outputs.map (fun o => (o.2).index)).Nodup ∧
    (∀ o ∈ (ctxs.foldl emitBeforeStep st).outputs,
      (o.2).index ∈ (ctxs.foldl emitBeforeStep st).printedSet) := by
  induction ctxs generalizing st with
  | nil => exact ⟨hset, hout, hnd, hos⟩
  | cons c cs ih =>
      rw [List.foldl_cons]
      by_cases hc : c.index ∈ st.printedSet
      · have hstep : emitBeforeStep st c = st := by unfold emitBeforeStep; simp [hc]
        rw [hstep]
        exact ih st (fun b hb => hctx b (List.mem_cons_of_mem _ hb)) hset hout hnd hos
      · have hstep : emitBeforeStep st c
            = { st with outputs := st.outputs ++ [(Role.before, c)],
                        printedSet := c.index :: st.printedSet } := by
          unfold emitBeforeStep; simp [hc]
        rw [hstep]
        refine ih _ (fun b hb => hctx b (List.mem_cons_of_mem _ hb)) ?_ ?_ ?_ ?_
        · intro i hi
          rcases List.mem_cons.mp hi with h | h
          · exact h ▸ hctx c (List.mem_cons_self _ _)
          · exact hset i h
        · intro o ho
          rcases List.mem_append.mp ho with h | h
          · exact hout o h
          · have : o = (Role.before, c) := List.mem_singleton.mp h
            exact this ▸ hctx c (List.mem_cons_self _ _)
        · rw [List.map_append]
          refine nodup_append_one _ _ hnd ?_
          intro hmem
          rcases List.mem_map.mp hmem with ⟨o, ho, hoi⟩
          have hoc : (o.2).index = c.index := hoi
          exact hc (hoc ▸ hos o ho)
        · intro o ho
          rcases List.mem_append.mp ho with h | h
          · exact List.mem_cons_of_mem _ (hos o h)
          · have : o = (Role.before, c) := List.mem_singleton.mp h
            subst this
            exact List.mem_cons_self _ _

theorem windowStep_printedSet_eq (F : Rec → Bool) (B A : Nat) (jm : Bool)
    (st : WinState) (r0 : Rec) :
    (windowStep F B A jm st r0).1.printedSet
      = (phase2 (F (finalizeIntake jm r0 (st.recordIndex + 1)))
          (finalizeIntake jm r0 (st.recordIndex + 1))
          (phase1 (F (finalizeIntake jm r0 (st.recordIndex + 1))) B
            { st with recordIndex := st.recordIndex + 1,
                      totalRecords := st.totalRecords + 1 })).printedSet := by
  simp only [windowStep, phase4_printedSet, phase3_printedSet]

theorem windowStep_outputs_eq (F : Rec → Bool) (B A : Nat) (jm : Bool)
    (st : WinState) (r0 : Rec) :
    (windowStep F B A jm st r0).1.outputs
      = (phase2 (F (finalizeIntake jm r0 (st.recordIndex + 1)))
          (finalizeIntake jm r0 (st.recordIndex + 1))
          (phase1 (F (finalizeIntake jm r0 (st.recordIndex + 1))) B
            { st with recordIndex := st.recordIndex + 1,
                      totalRecords := st.totalRecords + 1 })).outputs := by
  simp only [windowStep, phase4_outputs, phase3_outputs]

/-- Anything in the buffer after a step was already buffered or is the
record just finalized. -/
theorem phase4_beforeBuffer_mem (B : Nat) (r : Rec) (s : WinState)
    {b : Rec} (hb : b ∈ (phase4 B r s).beforeBuffer) : b ∈ s.beforeBuffer ∨ b = r := by
  unfold phase4 at hb
  split at hb
  · split at hb
    · have hmem : b ∈ s.beforeBuffer ++ [r] := List.mem_of_mem_tail hb
      rcases List.mem_append.mp hmem with h | h
      · exact Or.inl h
      · exact Or.inr (List.mem_singleton.mp h)
    · rcases List.mem_append.mp hb with h | h
      · exact Or.inl h
      · exact Or.inr (List.mem_singleton.mp h)
  · exact Or.inl hb

theorem windowStep_beforeBuffer_mem (F : Rec → Bool) (B A : Nat) (jm : Bool)
    (st : WinState) (r0 : Rec) {b : Rec}
    (hb : b ∈ (windowStep F B A jm st r0).1.beforeBuffer) :
    b ∈ st.beforeBuffer ∨ b = finalizeIntake jm r0 (st.recordIndex + 1) := by
  have hb4 : b ∈ (phase4 B (finalizeIntake jm r0 (st.recordIndex + 1))
      (phase3 (F (finalizeIntake jm r0 (st.recordIndex + 1))) A
        (phase2 (F (finalizeIntake jm r0 (st.recordIndex + 1)))
          (finalizeIntake jm r0 (st.recordIndex + 1))
          (phase1 (F (finalizeIntake jm r0 (st.recordIndex + 1))) B
            { st with recordIndex := st.recordIndex + 1,
                      totalRecords := st.totalRecords + 1 })))).beforeBuffer := hb
  rcases phase4_beforeBuffer_mem _ _ _ hb4 with h | h
  · rw [phase3_beforeBuffer, phase2_beforeBuffer, phase1_beforeBuffer] at h
    exact Or.inl h
  · exact Or.inr h

/-- One `finalizeRecord` call preserves the run invariant. -/
theorem windowStep_inv (F : Rec → Bool) (B A : Nat) (jm : Bool)
    (st : WinState) (r0 : Rec) (h : StInv st) :
    StInv (windowStep F B A jm st r0).1 := by
  obtain ⟨hset, hbuf, hout, hnd, hos⟩ := h
  set N := st.recordIndex with hN
  set r := finalizeIntake jm r0 (N + 1) with hr
  have hrIdx : r.index = N + 1 := finalizeIntake_index jm r0 (N + 1)
  set st1 : WinState := { st with recordIndex := N + 1, totalRecords := st.totalRecords + 1 }
    with hst1
  set isM := F r with hisM
  -- after phase1 everything printed still has index ≤ N
  have h1 : (∀ i ∈ (phase1 isM B st1).printedSet, i ≤ N) ∧
      (∀ o ∈ (phase1 isM B st1).outputs, (o.2).index ≤ N) ∧
      ((phase1 isM B st1).outputs.map (fun o => (o.2).index)).Nodup ∧
      (∀ o ∈ (phase1 isM B st1).outputs, (o.2).index ∈ (phase1 isM B st1).printedSet) := by
    unfold phase1
    split
    · exact emitBeforeFold_inv N st1.beforeBuffer st1 hbuf hset hout hnd hos
    · exact ⟨hset, hout, hnd, hos⟩
  obtain ⟨h1set, h1out, h1nd, h1os⟩ := h1
  set s1 := phase1 isM B st1 with hs1
  -- phase2 may add the current record, whose fresh index N+1 keeps Nodup
  have h2 : (∀ i ∈ (phase2 isM r s1).printedSet, i ≤ N + 1) ∧
      (∀ o ∈ (phase2 isM r s1).outputs, (o.2).index ≤ N + 1) ∧
      ((phase2 isM r s1).outputs.map (fun o => (o.2).index)).Nodup ∧
      (∀ o ∈ (phase2 isM r s1).outputs, (o.2).index ∈ (phase2 isM r s1).printedSet) := by
    unfold phase2
    split
    · refine ⟨?_, ?_, ?_, ?_⟩
      · intro i hi
        rcases List.mem_cons.mp hi with hh | hh
        · subst hh
          simp [hrIdx]
        · exact Nat.le_succ_of_le (h1set i hh)
      · intro o ho
        rcases List.mem_append.mp ho with hh | hh
        · exact Nat.le_succ_of_le (h1out o hh)
        · have heq : o = ((if isM then Role.matched else Role.after), r) :=
            List.mem_singleton.mp hh
          subst heq
          simp [hrIdx]
      · rw [List.map_append]
        refine nodup_append_one _ _ h1nd ?_
        intro hmem
        rcases List.mem_map.mp hmem with ⟨o, ho, hoi⟩
        have hoc : (o.2).index = r.index := hoi
        have hle := h1out o ho
        rw [hrIdx] at hoc
        omega
      · intro o ho
        rcases List.mem_append.mp ho with hh | hh
        · exact List.mem_cons_of_mem _ (h1os o hh)
        · have heq : o = ((if isM then Role.matched else Role.after), r) :=
            List.mem_singleton.mp hh
          subst heq
          exact List.mem_cons_self _ _
    · exact ⟨fun i hi => Nat.le_succ_of_le (h1set i hi),
        fun o ho => Nat.le_succ_of_le (h1out o ho), h1nd, h1os⟩
  obtain ⟨h2set, h2out, h2nd, h2os⟩ := h2
  have hpsEq : (windowStep F B A jm st r0).1.printedSet = (phase2 isM r s1).printedSet := by
    rw [windowStep_printedSet_eq]
  have houtEq : (windowStep F B A jm st r0).1.outputs = (phase2 isM r s1).outputs := by
    rw [windowStep_outputs_eq]
  have hriEq : (windowStep F B A jm st r0).1.recordIndex = N + 1 :=
    windowStep_recordIndex F B A jm st r0
  refine ⟨?_, ?_, ?_, ?_, ?_⟩
  · intro i hi
    rw [hpsEq] at hi
    rw [hriEq]
    exact h2set i hi
  · intro b hb
    rw [hriEq]
    rcases windowStep_beforeBuffer_mem F B A jm st r0 hb with hh | hh
    · exact Nat.le_succ_of_le (hbuf b hh)
    · rw [hh, ← hr, hrIdx]
  · intro o ho
    rw [houtEq] at ho
    rw [hriEq]
    exact h2out o ho
  · rw [houtEq]
    exact h2nd
  · intro o ho
    rw [houtEq] at ho
    rw [hpsEq]
    exact h2os o ho

/-- The run invariant holds after folding any record list. -/
theorem windowFoldJ_inv (F : Rec → Bool) (B A : Nat) (jm : Bool)
    (st : WinState) (rs : List Rec) (h : StInv st) :
    StInv (windowFoldJ F B A jm st rs) := by
  induction rs generalizing st with
  | nil => exact h
  | cons r rs ih => exact ih _ (windowStep_inv F B A jm st r h)

/-! ## The invariant holds for complete raw-scan and index runs -/

theorem finalizeRecordFile_winInv (F : Rec → Bool) (B A : Nat) (wi : Bool)
    (st : FileState) (h : StInv st.win) :
    StInv (finalizeRecordFile F B A wi st).win := by
  cases hcur : st.current with
  | none => simpa [finalizeRecordFile, hcur] using h
  | some r0 => simpa [finalizeRecordFile, hcur] using windowStep_inv F B A true st.win r0 h

theorem processFileLine_winInv (P : LogParser) (F : Rec → Bool) (B A : Nat)
    (wi : Bool) (st : FileState) (line : String) (h : StInv st.win) :
    StInv (processFileLine P F B A wi st line).win := by
  unfold processFileLine
  split
  · exact finalizeRecordFile_winInv F B A wi _ h
  · cases hc : st.current <;> simp only [hc] <;> exact h

theorem foldLines_winInv (P : LogParser) (F : Rec → Bool) (B A : Nat)
    (wi : Bool) (lines : List String) (st : FileState) (h : StInv st.win) :
    StInv (lines.foldl (processFileLine P F B A wi) st).win := by
  induction lines generalizing st with
  | nil => exact h
  | cons l ls ih => exact ih _ (processFileLine_winInv P F B A wi st l h)

theorem processFile_winInv (P : LogParser) (F : Rec → Bool) (B A : Nat)
    (wi : Bool) (m : MetaPayload) (lines : List String) :
    StInv (processFile P F B A wi m lines).win := by
  unfold processFile
  exact finalizeRecordFile_winInv F B A wi _
    (foldLines_winInv P F B A wi lines _ stInv_initWin)

theorem processIndexLine_winInv (F : Rec → Bool) (B A : Nat) (path : String)
    (acc : IdxState × Option IndexError) (l : IndexLine) (h : StInv acc.1.win) :
    StInv ((processIndexLine F B A path acc l).1.win) := by
  obtain ⟨st, err⟩ := acc
  cases err with
  | some e => exact h
  | none =>
      cases l with
      | blank => exact h
      | malformed => exact h
      | meta m => exact h
      | entry p => exact windowStep_inv F B A false st.win (recordOfPayload p) h

theorem foldIdx_winInv (F : Rec → Bool) (B A : Nat) (path : String)
    (ls : List IndexLine) (acc : IdxState × Option IndexError) (h : StInv acc.1.win) :
    StInv ((ls.foldl (processIndexLine F B A path) acc).1.win) := by
  induction ls generalizing acc with
  | nil => exact h
  | cons l ls ih => exact ih _ (processIndexLine_winInv F B A path acc l h)

theorem processIndex_winInv (F : Rec → Bool) (B A : Nat) (path : String)
    (ls : List IndexLine) : StInv ((processIndex F B A path ls).1.win) := by
  unfold processIndex
  exact foldIdx_winInv F B A path ls _ stInv_initWin

/-- **C3.**  In every run — raw scan or index read-back — the Printer is
called at most once for any given `sequenceIndex`, no matter how many
roles the record qualifies for. -/
theorem claim_C3_no_double_emission (P : LogParser) (F : Rec → Bool) (B A : Nat)
    (wi : Bool) (m : MetaPayload) (lines : List String)
    (path : String) (ils : List IndexLine) :
    (∀ i, ((processFile P F B A wi m lines).win.outputs.map
        (fun o => (o.2).index)).count i ≤ 1) ∧
    (∀ i, ((processIndex F B A path ils).1.win.outputs.map
        (fun o => (o.2).index)).count i ≤ 1) := by
  constructor
  · intro i
    have hnd := (processFile_winInv P F B A wi m lines).2.2.2.1
    exact List.nodup_iff_count_le_one.mp hnd i
  · intro i
    have hnd := (processIndex_winInv F B A path ils).2.2.2.1
    exact List.nodup_iff_count_le_one.mp hnd i

/-! ## Emission of the current record at its own finalization step -/

theorem emitBeforeFold_printedSet_le (M : Nat) (ctxs : List Rec) (st : WinState)
    (hctx : ∀ b ∈ ctxs, b.index ≤ M)
    (hset : ∀ i ∈ st.printedSet, i ≤ M) :
    ∀ i ∈ (ctxs.foldl emitBeforeStep st).printedSet, i ≤ M := by
  induction ctxs generalizing st with
  | nil => exact hset
  | cons c cs ih =>
      rw [List.foldl_cons]
      refine ih _ (fun b hb => hctx b (List.mem_cons_of_mem _ hb)) ?_
      intro i hi
      unfold emitBeforeStep at hi
      split at hi
      · exact hset i hi
      · rcases List.mem_cons.mp hi with hh | hh
        · exact hh ▸ hctx c (List.mem_cons_self _ _)
        · exact hset i hh

theorem phase1_printedSet_le (M : Nat) (isM : Bool) (B : Nat) (st : WinState)
    (hbuf : ∀ b ∈ st.beforeBuffer, b.index ≤ M)
    (hset : ∀ i ∈ st.printedSet, i ≤ M) :
    ∀ i ∈ (phase1 isM B st).printedSet, i ≤ M := by
  unfold phase1
  split
  · exact emitBeforeFold_printedSet_le M st.beforeBuffer st hbuf hset
  · exact hset

/-- When the freshly finalized record is a match, or the countdown is
still positive, it is printed at its own step (with the right role) and
its index enters the printed set. -/
theorem windowStep_emits_self (F : Rec → Bool) (B A : Nat) (jm : Bool)
    (st : WinState) (r0 : Rec)
    (hset : ∀ i ∈ st.printedSet, i ≤ st.recordIndex)
    (hbuf : ∀ b ∈ st.beforeBuffer, b.index ≤ st.recordIndex)
    (hcond : F (finalizeIntake jm r0 (st.recordIndex + 1)) = true ∨ 0 < st.afterCountdown) :
    ((if F (finalizeIntake jm r0 (st.recordIndex + 1)) then Role.matched else Role.after),
        finalizeIntake jm r0 (st.recordIndex + 1)) ∈ (windowStep F B A jm st r0).1.outputs ∧
    st.recordIndex + 1 ∈ (windowStep F B A jm st r0).1.printedSet := by
  set r := finalizeIntake jm r0 (st.recordIndex + 1) with hr
  have hrIdx : r.index = st.recordIndex + 1 := finalizeIntake_index jm r0 _
  set st1 : WinState :=
    { st with recordIndex := st.recordIndex + 1, totalRecords := st.totalRecords + 1 }
    with hst1
  set isM := F r with hisM
  set s1 := phase1 isM B st1 with hs1
  have hs1set : ∀ i ∈ s1.printedSet, i ≤ st.recordIndex :=
    phase1_printedSet_le st.recordIndex isM B st1 hbuf hset
  have hs1cd : s1.afterCountdown = st.afterCountdown := by
    rw [hs1, phase1_afterCountdown]
  have hnotin : r.index ∉ s1.printedSet := by
    intro hmem
    have := hs1set _ hmem
    rw [hrIdx] at this
    omega
  have hguard : (isM = true ∨ (isM = false ∧ 0 < s1.afterCountdown)) ∧ r.index ∉ s1.printedSet := by
    refine ⟨?_, hnotin⟩
    by_cases hMb : isM = true
    · exact Or.inl hMb
    · have hMf : isM = false := by simpa using hMb
      rcases hcond with hc | hc
      · exact absurd hc hMb
      · exact Or.inr ⟨hMf, hs1cd ▸ hc⟩
  have h2out : (phase2 isM r s1).outputs
      = s1.outputs ++ [((if isM then Role.matched else Role.after), r)] := by
    unfold phase2
    rw [if_pos hguard]
  have h2set : (phase2 isM r s1).printedSet = r.index :: s1.printedSet := by
    unfold phase2
    rw [if_pos hguard]
  constructor
  · rw [windowStep_outputs_eq, ← hs1, ← hr, ← hisM, h2out]
    exact List.mem_append_right _ (List.mem_singleton.mpr rfl)
  · rw [windowStep_printedSet_eq, ← hs1, ← hr, ← hisM, h2set, ← hrIdx]
    exact List.mem_cons_self _ _

/-! ## After-context countdown arithmetic -/

theorem windowStep_afterCountdown (F : Rec → Bool) (B A : Nat) (jm : Bool)
    (st : WinState) (r0 : Rec) :
    (windowStep F B A jm st r0).1.afterCountdown
      = if F (finalizeIntake jm r0 (st.recordIndex + 1)) then A
        else st.afterCountdown - 1 := by
  cases hM : F (finalizeIntake jm r0 (st.recordIndex + 1)) with
  | true => simp [windowStep, phase4_afterCountdown, phase3, hM]
  | false =>
      simp only [windowStep, phase4_afterCountdown, phase3, hM, Bool.false_eq_true,
        if_false, apply_ite WinState.afterCountdown, phase2_afterCountdown,
        phase1_afterCountdown]
      split
      · rfl
      · omega

theorem windowStep_cd_le (F : Rec → Bool) (B A : Nat) (jm : Bool)
    (st : WinState) (r0 : Rec) (h : st.afterCountdown ≤ A) :
    (windowStep F B A jm st r0).1.afterCountdown ≤ A := by
  rw [windowStep_afterCountdown]
  split
  · exact Nat.le_refl A
  · omega

theorem windowFoldJ_cons (F : Rec → Bool) (B A : Nat) (jm : Bool)
    (st : WinState) (r : Rec) (rs : List Rec) :
    windowFoldJ F B A jm st (r :: rs)
      = windowFoldJ F B A jm (windowStep F B A jm st r).1 rs := rfl

theorem windowFoldJ_append (F : Rec → Bool) (B A : Nat) (jm : Bool)
    (st : WinState) (xs ys : List Rec) :
    windowFoldJ F B A jm st (xs ++ ys)
      = windowFoldJ F B A jm (windowFoldJ F B A jm st xs) ys := by
  unfold windowFoldJ
  exact List.foldl_append _ _ _ _

/-- Number of non-matching records in a segment, when the segment is
finalized starting from record index `i + 1`. -/
def nmSeg (F : Rec → Bool) (jm : Bool) : Nat → List Rec → Nat
  | _, [] => 0
  | i, r :: ts =>
      (if F (finalizeIntake jm r (i + 1)) then 0 else 1) + nmSeg F jm (i + 1) ts

/-- The countdown loses at most one per non-matching record (a match
resets it to `A`, which dominates any countdown that stayed `≤ A`). -/
theorem windowFoldJ_cd_ge (F : Rec → Bool) (B A : Nat) (jm : Bool)
    (ts : List Rec) (st : WinState) (hA : st.afterCountdown ≤ A) :
    st.afterCountdown
      ≤ (windowFoldJ F B A jm st ts).afterCountdown + nmSeg F jm st.recordIndex ts := by
  induction ts generalizing st with
  | nil => simp [windowFoldJ, nmSeg]
  | cons r ts ih =>
      rw [windowFoldJ_cons]
      have hA' : (windowStep F B A jm st r).1.afterCountdown ≤ A :=
        windowStep_cd_le F B A jm st r hA
      have hrec := ih ((windowStep F B A jm st r).1) hA'
      rw [windowStep_recordIndex] at hrec
      have hstep := windowStep_afterCountdown F B A jm st r
      simp only [nmSeg]
      cases hM : F (finalizeIntake jm r (st.recordIndex + 1)) with
      | true =>
          simp only [hM, if_pos] at hstep ⊢
          omega
      | false =>
          simp only [hM, Bool.false_eq_true, if_false] at hstep ⊢
          omega

/-- The countdown stays bounded by the configured after-context count. -/
theorem windowFoldJ_cd_le (F : Rec → Bool) (B A : Nat) (jm : Bool)
    (ts : List Rec) (st : WinState) (hA : st.afterCountdown ≤ A) :
    (windowFoldJ F B A jm st ts).afterCountdown ≤ A := by
  induction ts generalizing st with
  | nil => exact hA
  | cons r ts ih => exact ih _ (windowStep_cd_le F B A jm st r hA)

/-! ## Per-position match status and fold surgery -/

/-- Whether the record at 0-based position `k` of a run's incoming
record list satisfies the filter at its finalization (where it receives
record index `k + 1`). -/
def matchAt (F : Rec → Bool) (jm : Bool) (rs : List Rec) (k : Nat) : Bool :=
  F (finalizeIntake jm (rs.getD k default) (k + 1))

/-- Number of non-matching records strictly between positions `p` and
`q`. -/
def nonMatchBetween (F : Rec → Bool) (jm : Bool) (rs : List Rec) (p q : Nat) : Nat :=
  (List.range' (p + 1) (q - (p + 1))).countP (fun k => !matchAt F jm rs k)

theorem matchAt_eq_getElem (F : Rec → Bool) (jm : Bool) (rs : List Rec)
    (k : Nat) (h : k < rs.length) :
    matchAt F jm rs k = F (finalizeIntake jm rs[k] (k + 1)) := by
  have hget : rs.getD k default = rs[k] := by
    rw [List.getD_eq_getElem?_getD, List.getElem?_eq_getElem h, Option.getD_some]
  simp only [matchAt, hget]

theorem nmSeg_append (F : Rec → Bool) (jm : Bool) (xs ys : List Rec) (i : Nat) :
    nmSeg F jm i (xs ++ ys) = nmSeg F jm i xs + nmSeg F jm (i + xs.length) ys := by
  induction xs generalizing i with
  | nil => simp [nmSeg]
  | cons x xs ih =>
      simp only [List.cons_append, nmSeg, List.length_cons, List.append_eq]
      rw [ih (i + 1)]
      have hidx : i + 1 + xs.length = i + (xs.length + 1) := by omega
      rw [hidx]
      omega

/-- `nmSeg` over a segment of the record list counts exactly the
non-matching positions. -/
theorem nmSeg_eq_countP (F : Rec → Bool) (jm : Bool) (rs : List Rec) :
    ∀ (n i : Nat), i + n ≤ rs.length →
      nmSeg F jm i ((rs.drop i).take n)
        = (List.range' i n).countP (fun k => !matchAt F jm rs k) := by
  intro n
  induction n with
  | zero => intro i h; simp [nmSeg]
  | succ n ih =>
      intro i h
      have hi : i < rs.length := by omega
      rw [List.drop_eq_getElem_cons hi, List.take_succ_cons, List.range'_succ,
        List.countP_cons]
      simp only [nmSeg]
      rw [ih (i + 1) (by omega)]
      rw [matchAt_eq_getElem F jm rs i hi]
      cases hM : F (finalizeIntake jm rs[i] (i + 1)) <;> simp [hM] <;> omega

theorem windowFoldJ_singleton (F : Rec → Bool) (B A : Nat) (jm : Bool)
    (st : WinState) (r : Rec) :
    windowFoldJ F B A jm st [r] = (windowStep F B A jm st r).1 := rfl

/-- Splitting a windowed run at position `k`. -/
theorem windowFoldJ_decomp (F : Rec → Bool) (B A : Nat) (jm : Bool)
    (rs : List Rec) (k : Nat) (h : k < rs.length) :
    windowFoldJ F B A jm initWin rs
      = windowFoldJ F B A jm
          ((windowStep F B A jm (windowFoldJ F B A jm initWin (rs.take k)) rs[k]).1)
          (rs.drop (k + 1)) := by
  conv_lhs => rw [← List.take_append_drop k rs]
  rw [windowFoldJ_append, List.drop_eq_getElem_cons h, windowFoldJ_cons]

theorem windowFoldJ_take_recordIndex (F : Rec → Bool) (B A : Nat) (jm : Bool)
    (rs : List Rec) (k : Nat) (h : k ≤ rs.length) :
    (windowFoldJ F B A jm initWin (rs.take k)).recordIndex = k := by
  rw [windowFoldJ_recordIndex, List.length_take]
  simp [initWin]
  omega

/-! ## Role precedence: a matching record is only ever printed as a match -/

/-- Provenance of a printed pair after the before-context loop: it was
already printed, or it is a fresh before-context print of an unprinted
buffered record. -/
theorem emitBeforeFold_outputs_src (ctxs : List Rec) (st : WinState) :
    ∀ o ∈ (ctxs.foldl emitBeforeStep st).outputs,
      o ∈ st.outputs
      ∨ ((o.2).index ∉ st.printedSet ∧ o.1 = Role.before ∧ o.2 ∈ ctxs) := by
  induction ctxs generalizing st with
  | nil => intro o ho; exact Or.inl ho
  | cons c cs ih =>
      intro o ho
      rw [List.foldl_cons] at ho
      rcases ih _ o ho with h | h
      · by_cases hc : c.index ∈ st.printedSet
        · unfold emitBeforeStep at h
          rw [if_pos hc] at h
          exact Or.inl h
        · unfold emitBeforeStep at h
          rw [if_neg hc] at h
          rcases List.mem_append.mp h with hh | hh
          · exact Or.inl hh
          · have heq : o = (Role.before, c) := List.mem_singleton.mp hh
            subst heq
            exact Or.inr ⟨hc, rfl, List.mem_cons_self _ _⟩
      · refine Or.inr ⟨fun hmem => h.1 (emitBeforeStep_printedSet_mono st c hmem), h.2.1,
          List.mem_cons_of_mem _ h.2.2⟩

theorem phase1_outputs_src (isM : Bool) (B : Nat) (st : WinState) :
    ∀ o ∈ (phase1 isM B st).outputs,
      o ∈ st.outputs
      ∨ ((o.2).index ∉ st.printedSet ∧ o.1 = Role.before ∧ o.2 ∈ st.beforeBuffer) := by
  unfold phase1
  split
  · exact emitBeforeFold_outputs_src st.beforeBuffer st
  · intro o ho; exact Or.inl ho

/-- Provenance of a printed pair after one full `finalizeRecord` call. -/
theorem windowStep_outputs_src (F : Rec → Bool) (B A : Nat) (jm : Bool)
    (st : WinState) (r0 : Rec) :
    ∀ o ∈ (windowStep F B A jm st r0).1.outputs,
      o ∈ st.outputs
      ∨ ((o.2).index ∉ st.printedSet ∧ o.1 = Role.before ∧ o.2 ∈ st.beforeBuffer)
      ∨ o = ((if F (finalizeIntake jm r0 (st.recordIndex + 1)) then Role.matched else Role.after),
          finalizeIntake jm r0 (st.recordIndex + 1)) := by
  intro o ho
  rw [windowStep_outputs_eq] at ho
  set r := finalizeIntake jm r0 (st.recordIndex + 1) with hr
  set isM := F r with hisM
  set st1 : WinState :=
    { st with recordIndex := st.recordIndex + 1, totalRecords := st.totalRecords + 1 }
    with hst1
  unfold phase2 at ho
  split at ho
  · rcases List.mem_append.mp ho with hh | hh
    · rcases phase1_outputs_src isM B st1 o hh with h | h
      · exact Or.inl h
      · exact Or.inr (Or.inl h)
    · have heq : o = ((if isM then Role.matched else Role.after), r) :=
        List.mem_singleton.mp hh
      exact Or.inr (Or.inr heq)
  · rcases phase1_outputs_src isM B st1 o ho with h | h
    · exact Or.inl h
    · exact Or.inr (Or.inl h)

/-- Tracking one already-matched record index `t` through the rest of a
run: it stays marked printed, and every print of `t` carried role
`match`. -/
def MatchTag (t : Nat) (st : WinState) : Prop :=
  t ∈ st.printedSet ∧ t ≤ st.recordIndex ∧
  (∀ o ∈ st.outputs, (o.2).index = t → o.1 = Role.matched)

theorem windowStep_matchTag (F : Rec → Bool) (B A : Nat) (jm : Bool)
    (st : WinState) (r0 : Rec) (t : Nat) (hI : StInv st) (hT : MatchTag t st) :
    MatchTag t (windowStep F B A jm st r0).1 := by
  obtain ⟨hmem, hle, hroles⟩ := hT
  refine ⟨windowStep_printedSet_mono F B A jm st r0 hmem, ?_, ?_⟩
  · rw [windowStep_recordIndex]; omega
  · intro o ho hidx
    rcases windowStep_outputs_src F B A jm st r0 o ho with h | h | h
    · exact hroles o h hidx
    · exact absurd (hidx ▸ hmem) h.1
    · subst h
      have hidx' : st.recordIndex + 1 = t := by
        rw [← finalizeIntake_index jm r0 (st.recordIndex + 1)]
        exact hidx
      exfalso
      omega

theorem windowFoldJ_matchTag (F : Rec → Bool) (B A : Nat) (jm : Bool)
    (ts : List Rec) (st : WinState) (t : Nat) (hI : StInv st) (hT : MatchTag t st) :
    MatchTag t (windowFoldJ F B A jm st ts) := by
  induction ts generalizing st with
  | nil => exact hT
  | cons r ts ih =>
      exact ih _ (windowStep_inv F B A jm st r hI)
        (windowStep_matchTag F B A jm st r t hI hT)

/-- Finalizing a matching record starts the tag: it is printed as a
match at its own step, and no other print of its index exists. -/
theorem windowStep_matchTag_start (F : Rec → Bool) (B A : Nat) (jm : Bool)
    (st : WinState) (r0 : Rec) (hI : StInv st)
    (hM : F (finalizeIntake jm r0 (st.recordIndex + 1)) = true) :
    MatchTag (st.recordIndex + 1) (windowStep F B A jm st r0).1 := by
  obtain ⟨hset, hbuf, hout, hnd, hos⟩ := hI
  have hself := windowStep_emits_self F B A jm st r0 hset hbuf (Or.inl hM)
  refine ⟨hself.2, ?_, ?_⟩
  · rw [windowStep_recordIndex]
  · intro o ho hidx
    rcases windowStep_outputs_src F B A jm st r0 o ho with h | h | h
    · exact absurd hidx (by have := hout o h; omega)
    · exact absurd hidx (by have := hbuf o.2 h.2.2; omega)
    · subst h
      simp [hM]

/-- **C4.**  For every run of the windowing core, a record that
satisfies the filter predicate, whenever it is emitted, is emitted with
role `match` — never as before- or after-context, even when it also
lies inside another match's context window. -/
theorem claim_C4_role_precedence (F : Rec → Bool) (B A : Nat) (jm : Bool)
    (rs : List Rec) (p : Nat) (hp : p < rs.length)
    (hFp : matchAt F jm rs p = true) :
    ((windowFoldJ F B A jm initWin rs).outputs.filter
        (fun o => decide ((o.2).index = p + 1))).all
      (fun o => decide (o.1 = Role.matched)) = true := by
  have hdec := windowFoldJ_decomp F B A jm rs p hp
  set S0 := windowFoldJ F B A jm initWin (rs.take p) with hS0
  have hri : S0.recordIndex = p :=
    windowFoldJ_take_recordIndex F B A jm rs p (Nat.le_of_lt hp)
  have hInv0 : StInv S0 := windowFoldJ_inv F B A jm initWin _ stInv_initWin
  have hM : F (finalizeIntake jm rs[p] (S0.recordIndex + 1)) = true := by
    rw [hri, ← matchAt_eq_getElem F jm rs p hp]
    exact hFp
  have hTag1 : MatchTag (p + 1) (windowStep F B A jm S0 rs[p]).1 := by
    have h := windowStep_matchTag_start F B A jm S0 rs[p] hInv0 hM
    rw [hri] at h
    exact h
  have hInv1 : StInv (windowStep F B A jm S0 rs[p]).1 :=
    windowStep_inv F B A jm S0 rs[p] hInv0
  have hTag : MatchTag (p + 1) (windowFoldJ F B A jm initWin rs) := by
    rw [hdec]
    exact windowFoldJ_matchTag F B A jm _ _ _ hInv1 hTag1
  rw [List.all_eq_true]
  intro o ho
  have hof := List.mem_filter.mp ho
  have hidx : (o.2).index = p + 1 := of_decide_eq_true hof.2
  exact decide_eq_true (hTag.2.2 o hof.1 hidx)

/-- **C5.**  The countdown restart on match gives continuous coverage:
when two matches are separated by fewer non-matching records than the
after-context count, every record strictly between them is emitted
exactly once — no gap, no duplicate. -/
theorem claim_C5_after_context_restart (F : Rec → Bool) (B A : Nat) (jm : Bool)
    (rs : List Rec) (p q m : Nat)
    (hpm : p < m) (hmq : m < q) (hq : q < rs.length)
    (hFp : matchAt F jm rs p = true)
    (hFq : matchAt F jm rs q = true)
    (hnm : nonMatchBetween F jm rs p q < A) :
    ((windowFoldJ F B A jm initWin rs).outputs.map
        (fun o => (o.2).index)).count (m + 1) = 1 := by
  have hp : p < rs.length := by omega
  have hm : m < rs.length := by omega
  set Sm := windowFoldJ F B A jm initWin (rs.take m) with hSm
  have hriM : Sm.recordIndex = m :=
    windowFoldJ_take_recordIndex F B A jm rs m (Nat.le_of_lt hm)
  have hInvM : StInv Sm := windowFoldJ_inv F B A jm initWin _ stInv_initWin
  have hcond : F (finalizeIntake jm rs[m] (Sm.recordIndex + 1)) = true
      ∨ 0 < Sm.afterCountdown := by
    by_cases hMm : matchAt F jm rs m = true
    · left
      rw [hriM, ← matchAt_eq_getElem F jm rs m hm]
      exact hMm
    · right
      have hMmf : matchAt F jm rs m = false := by simpa using hMm
      set S0 := windowFoldJ F B A jm initWin (rs.take (p + 1)) with hS0d
      have hS0 : S0
          = (windowStep F B A jm (windowFoldJ F B A jm initWin (rs.take p)) rs[p]).1 := by
        rw [hS0d, ← List.take_concat_get' rs p hp, windowFoldJ_append, windowFoldJ_singleton]
      have hriP : (windowFoldJ F B A jm initWin (rs.take p)).recordIndex = p :=
        windowFoldJ_take_recordIndex F B A jm rs p (by omega)
      have hFp' : F (finalizeIntake jm rs[p] (p + 1)) = true := by
        rw [← matchAt_eq_getElem F jm rs p hp]
        exact hFp
      have hcdP : S0.afterCountdown = A := by
        rw [hS0, windowStep_afterCountdown, hriP]
        simp [hFp']
      have hriS0 : S0.recordIndex = p + 1 :=
        windowFoldJ_take_recordIndex F B A jm rs (p + 1) (by omega)
      set mid := (rs.drop (p + 1)).take (m - (p + 1)) with hmid
      have hSmEq : Sm = windowFoldJ F B A jm S0 mid := by
        rw [hSm, hS0d, ← windowFoldJ_append]
        congr 1
        rw [hmid, ← List.take_add]
        congr 1
        omega
      have hA0 : S0.afterCountdown ≤ A := by rw [hcdP]
      have hge := windowFoldJ_cd_ge F B A jm mid S0 hA0
      rw [← hSmEq, hcdP, hriS0] at hge
      rw [hmid] at hge
      rw [nmSeg_eq_countP F jm rs (m - (p + 1)) (p + 1) (by omega)] at hge
      have h1 : p + 1 + (m - (p + 1)) = m := by omega
      have h2 : (q - m) + (m - (p + 1)) = q - (p + 1) := by omega
      have h3 := List.range'_append_1 (p + 1) (m - (p + 1)) (q - m)
      rw [h1, h2] at h3
      have hcnt : nonMatchBetween F jm rs p q
          = (List.range' (p + 1) (m - (p + 1))).countP (fun k => !matchAt F jm rs k)
            + (List.range' m (q - m)).countP (fun k => !matchAt F jm rs k) := by
        unfold nonMatchBetween
        rw [← h3, List.countP_append]
      have hqm : q - m = (q - m - 1) + 1 := by omega
      have hmcons : List.range' m (q - m) = m :: List.range' (m + 1) (q - m - 1) := by
        rw [hqm, List.range'_succ]
        have harith : q - m - 1 + 1 - 1 = q - m - 1 := by omega
        rw [harith]
      have hcontrib : (if (!matchAt F jm rs m) = true then 1 else 0) = 1 := by
        rw [hMmf]
        rfl
      have hone : 1 ≤ (List.range' m (q - m)).countP (fun k => !matchAt F jm rs k) := by
        rw [hmcons, List.countP_cons]
        omega
      omega
  have hself := windowStep_emits_self F B A jm Sm rs[m] hInvM.1 hInvM.2.1 hcond
  have hdec := windowFoldJ_decomp F B A jm rs m hm
  have hmemOut :
      ((if F (finalizeIntake jm rs[m] (Sm.recordIndex + 1)) then Role.matched else Role.after),
        finalizeIntake jm rs[m] (Sm.recordIndex + 1))
      ∈ (windowFoldJ F B A jm initWin rs).outputs := by
    rw [hdec]
    exact windowFoldJ_outputs_mono F B A jm _ _ hself.1
  have hmemIdx : (m + 1)
      ∈ ((windowFoldJ F B A jm initWin rs).outputs.map (fun o => (o.2).index)) := by
    refine List.mem_map.mpr ⟨_, hmemOut, ?_⟩
    simp [finalizeIntake_index, hriM]
  have hnd := (windowFoldJ_inv F B A jm initWin rs stInv_initWin).2.2.2.1
  have hle := List.nodup_iff_count_le_one.mp hnd (m + 1)
  have hge1 := List.count_pos_iff.mpr hmemIdx
  omega

/-! ## Round-trip of lines: the records partition the input -/

theorem createRecord_lines (P : LogParser) (line : String) (n : Nat) :
    (createRecord P line n).lines = [line] := by
  unfold createRecord
  split <;> rfl

theorem finalizeRecordFile_records (F : Rec → Bool) (B A : Nat) (wi : Bool)
    (st : FileState) :
    (finalizeRecordFile F B A wi st).win.records
      = st.win.records
        ++ (match st.current with
            | none => []
            | some c => [finalizeIntake true c (st.win.recordIndex + 1)]) := by
  cases hcur : st.current with
  | none => simp [finalizeRecordFile, hcur]
  | some r0 => simp [finalizeRecordFile, hcur, windowStep_records]

theorem finalizeRecordFile_current (F : Rec → Bool) (B A : Nat) (wi : Bool)
    (st : FileState) : (finalizeRecordFile F B A wi st).current = none := by
  cases hcur : st.current <;> simp [finalizeRecordFile, hcur]

/-- The input lines accounted for by a file-scan state: all lines of
finalized records plus the lines of the open accumulator. -/
def flatLines (st : FileState) : List String :=
  (st.win.records.map Rec.lines).flatten
    ++ (match st.current with | some c => c.lines | none => [])

theorem flatLines_step (P : LogParser) (F : Rec → Bool) (B A : Nat) (wi : Bool)
    (st : FileState) (line : String) :
    flatLines (processFileLine P F B A wi st line) = flatLines st ++ [line] := by
  unfold processFileLine
  split
  · unfold flatLines
    rw [finalizeRecordFile_records]
    cases hcur : st.current with
    | none => simp [createRecord_lines, hcur]
    | some c => simp [createRecord_lines, hcur, finalizeIntake_lines]
  · cases hcur : st.current with
    | none => simp [hcur, flatLines, createRecord_lines]
    | some c => simp [hcur, flatLines, appendLine]

theorem flatLines_fold (P : LogParser) (F : Rec → Bool) (B A : Nat) (wi : Bool)
    (lines : List String) (st : FileState) :
    flatLines (lines.foldl (processFileLine P F B A wi) st) = flatLines st ++ lines := by
  induction lines generalizing st with
  | nil => simp
  | cons l ls ih =>
      rw [List.foldl_cons, ih, flatLines_step]
      simp

theorem finalizeRecordFile_flat (F : Rec → Bool) (B A : Nat) (wi : Bool)
    (st : FileState) :
    ((finalizeRecordFile F B A wi st).win.records.map Rec.lines).flatten = flatLines st := by
  rw [finalizeRecordFile_records]
  unfold flatLines
  cases hcur : st.current with
  | none => simp
  | some c => simp [finalizeIntake_lines]

/-- Sequence indices are assigned 1, 2, … in finalization order. -/
def IdxShape (w : WinState) : Prop :=
  w.records.map Rec.index = List.range' 1 w.records.length
    ∧ w.recordIndex = w.records.length

theorem initWin_idxShape : IdxShape initWin := by
  constructor <;> simp [initWin]

theorem windowStep_idxShape (F : Rec → Bool) (B A : Nat) (jm : Bool)
    (st : WinState) (r0 : Rec) (h : IdxShape st) :
    IdxShape (windowStep F B A jm st r0).1 := by
  obtain ⟨h1, h2⟩ := h
  constructor
  · rw [windowStep_records, List.map_append, h1, List.length_append]
    simp only [List.map_cons, List.map_nil, finalizeIntake_index, h2,
      List.length_cons, List.length_nil]
    have hap := List.range'_append_1 1 st.records.length 1
    rw [List.range'_one, Nat.add_comm 1 st.records.length] at hap
    exact hap
  · rw [windowStep_records, windowStep_recordIndex, h2]
    simp

theorem finalizeRecordFile_idxShape (F : Rec → Bool) (B A : Nat) (wi : Bool)
    (st : FileState) (h : IdxShape st.win) :
    IdxShape (finalizeRecordFile F B A wi st).win := by
  cases hcur : st.current with
  | none => simpa [finalizeRecordFile, hcur] using h
  | some r0 =>
      simpa [finalizeRecordFile, hcur] using windowStep_idxShape F B A true st.win r0 h

theorem processFileLine_idxShape (P : LogParser) (F : Rec → Bool) (B A : Nat)
    (wi : Bool) (st : FileState) (line : String) (h : IdxShape st.win) :
    IdxShape (processFileLine P F B A wi st line).win := by
  unfold processFileLine
  split
  · exact finalizeRecordFile_idxShape F B A wi _ h
  · cases hc : st.current <;> simp only [hc] <;> exact h

theorem foldLines_idxShape (P : LogParser) (F : Rec → Bool) (B A : Nat)
    (wi : Bool) (lines : List String) (st : FileState) (h : IdxShape st.win) :
    IdxShape (lines.foldl (processFileLine P F B A wi) st).win := by
  induction lines generalizing st with
  | nil => exact h
  | cons l ls ih => exact ih _ (processFileLine_idxShape P F B A wi st l h)

theorem processFile_idxShape (P : LogParser) (F : Rec → Bool) (B A : Nat)
    (wi : Bool) (m : MetaPayload) (lines : List String) :
    IdxShape (processFile P F B A wi m lines).win := by
  unfold processFile
  exact finalizeRecordFile_idxShape F B A wi _
    (foldLines_idxShape P F B A wi lines _ initWin_idxShape)

/-- **C2.**  Concatenating the `lines` of all finalized records of a
raw scan, in `sequenceIndex` order (which is exactly the order of the
`records` trace: indices run 1, 2, …), reproduces the input lines
exactly — every line once, in order, blank lines included. -/
theorem claim_C2_lines_roundtrip (P : LogParser) (F : Rec → Bool) (B A : Nat)
    (wi : Bool) (m : MetaPayload) (lines : List String) :
    (((processFile P F B A wi m lines).win.records.map Rec.lines).flatten = lines) ∧
    ((processFile P F B A wi m lines).win.records.map Rec.index
      = List.range' 1 (processFile P F B A wi m lines).win.records.length) := by
  constructor
  · unfold processFile
    rw [finalizeRecordFile_flat, flatLines_fold]
    simp [flatLines, initWin]
  · exact (processFile_idxShape P F B A wi m lines).1

/-! ## Timestamp-absence exclusion -/

/-- **C6.**  A record with no parsed timestamp never satisfies a filter
that specifies a lower bound, an upper bound, or both — regardless of
the bound values and of any other criteria. -/
theorem claim_C6_timestamp_absence (a : FilterArgs) (r : Rec)
    (hts : r.timestampMs = none)
    (hb : a.fromMs ≠ none ∨ a.toMs ≠ none) :
    createFilter a r = false := by
  unfold createFilter
  rcases hb with hb | hb
  · cases hf : a.fromMs with
    | none => exact absurd hf hb
    | some f => simp [hf, hts]
  · cases ht : a.toMs with
    | none => exact absurd ht hb
    | some u => cases hf : a.fromMs <;> simp [hf, ht, hts]

theorem claim_C6_timestamp_absence_witness :
    createFilter ⟨[], [], none, some 0, none, true⟩
      { index := 0, startLine := 1, endLine := 1, timestampRaw := none,
        timestampMs := none, level := some "ERROR", pid := none, thread := none,
        location := none, message := "x", messageLines := ["x"], lines := ["x"] }
      = false :=
  claim_C6_timestamp_absence _ _ rfl (Or.inl (by simp))

/-! ## The index writer: meta line first, one entry per finalized record -/

theorem windowStep_totShape (F : Rec → Bool) (B A : Nat) (jm : Bool)
    (st : WinState) (r0 : Rec) (h : st.records.length = st.totalRecords) :
    (windowStep F B A jm st r0).1.records.length
      = (windowStep F B A jm st r0).1.totalRecords := by
  rw [windowStep_records, windowStep_totalRecords, List.length_append, h]
  simp

theorem finalizeRecordFile_totShape (F : Rec → Bool) (B A : Nat) (wi : Bool)
    (st : FileState) (h : st.win.records.length = st.win.totalRecords) :
    (finalizeRecordFile F B A wi st).win.records.length
      = (finalizeRecordFile F B A wi st).win.totalRecords := by
  cases hcur : st.current with
  | none => simpa [finalizeRecordFile, hcur] using h
  | some r0 => simpa [finalizeRecordFile, hcur] using windowStep_totShape F B A true st.win r0 h

theorem processFileLine_totShape (P : LogParser) (F : Rec → Bool) (B A : Nat)
    (wi : Bool) (st : FileState) (line : String)
    (h : st.win.records.length = st.win.totalRecords) :
    (processFileLine P F B A wi st line).win.records.length
      = (processFileLine P F B A wi st line).win.totalRecords := by
  unfold processFileLine
  split
  · exact finalizeRecordFile_totShape F B A wi _ h
  · cases hc : st.current <;> simp only [hc] <;> exact h

theorem foldLines_totShape (P : LogParser) (F : Rec → Bool) (B A : Nat)
    (wi : Bool) (lines : List String) (st : FileState)
    (h : st.win.records.length = st.win.totalRecords) :
    (lines.foldl (processFileLine P F B A wi) st).win.records.length
      = (lines.foldl (processFileLine P F B A wi) st).win.totalRecords := by
  induction lines generalizing st with
  | nil => exact h
  | cons l ls ih => exact ih _ (processFileLine_totShape P F B A wi st l h)

theorem processFile_totShape (P : LogParser) (F : Rec → Bool) (B A : Nat)
    (wi : Bool) (m : MetaPayload) (lines : List String) :
    (processFile P F B A wi m lines).win.records.length
      = (processFile P F B A wi m lines).win.totalRecords := by
  unfold processFile
  exact finalizeRecordFile_totShape F B A wi _
    (foldLines_totShape P F B A wi lines _ (by simp [initWin]))

/-- Invariant: the written index is the meta line followed by one entry
per finalized record, in finalization order. -/
def IndexShape (m : MetaPayload) (st : FileState) : Prop :=
  st.indexLines
    = IndexLine.meta m
      :: st.win.records.map (fun r => IndexLine.entry (serializeRecordForIndex r))

theorem finalizeRecordFile_indexShape (F : Rec → Bool) (B A : Nat)
    (m : MetaPayload) (st : FileState) (h : IndexShape m st) :
    IndexShape m (finalizeRecordFile F B A true st) := by
  cases hcur : st.current with
  | none => simpa [IndexShape, finalizeRecordFile, hcur] using h
  | some r0 =>
      unfold IndexShape at h ⊢
      simp [finalizeRecordFile, hcur, windowStep_records, windowStep_snd, h, List.map_append]

theorem processFileLine_indexShape (P : LogParser) (F : Rec → Bool) (B A : Nat)
    (m : MetaPayload) (st : FileState) (line : String) (h : IndexShape m st) :
    IndexShape m (processFileLine P F B A true st line) := by
  unfold processFileLine
  split
  · have h1 : IndexShape m
        (finalizeRecordFile F B A true { st with lineNumber := st.lineNumber + 1 }) :=
      finalizeRecordFile_indexShape F B A m _ h
    exact h1
  · cases hc : st.current <;> simp only [hc] <;> exact h

theorem foldLines_indexShape (P : LogParser) (F : Rec → Bool) (B A : Nat)
    (m : MetaPayload) (lines : List String) (st : FileState) (h : IndexShape m st) :
    IndexShape m (lines.foldl (processFileLine P F B A true) st) := by
  induction lines generalizing st with
  | nil => exact h
  | cons l ls ih => exact ih _ (processFileLine_indexShape P F B A m st l h)

theorem processFile_indexShape (P : LogParser) (F : Rec → Bool) (B A : Nat)
    (m : MetaPayload) (lines : List String) :
    IndexShape m (processFile P F B A true m lines) := by
  unfold processFile
  refine finalizeRecordFile_indexShape F B A m _ ?_
  exact foldLines_indexShape P F B A m lines _ (by simp [IndexShape, initWin])

/-- The parts of the file-scan state that do not depend on the filter:
the index tap and the record trace are produced for every finalized
record regardless of the filter outcome. -/
def FRel (st st' : FileState) : Prop :=
  st.current = st'.current ∧ st.lineNumber = st'.lineNumber ∧
  st.indexLines = st'.indexLines ∧ st.win.recordIndex = st'.win.recordIndex ∧
  st.win.records = st'.win.records ∧ st.win.totalRecords = st'.win.totalRecords

theorem finalizeRecordFile_frel (F F' : Rec → Bool) (B A : Nat) (wi : Bool)
    (st st' : FileState) (h : FRel st st') :
    FRel (finalizeRecordFile F B A wi st) (finalizeRecordFile F' B A wi st') := by
  obtain ⟨hcur, hln, hidx, hri, hrec, htot⟩ := h
  cases hc : st.current with
  | none =>
      have hc' : st'.current = none := by rw [← hcur, hc]
      unfold finalizeRecordFile
      rw [hc, hc']
      exact ⟨hcur, hln, hidx, hri, hrec, htot⟩
  | some c =>
      have hc' : st'.current = some c := by rw [← hcur, hc]
      unfold finalizeRecordFile
      rw [hc, hc']
      refine ⟨rfl, hln, ?_, ?_, ?_, ?_⟩
      · cases wi <;> simp [windowStep_snd, hidx, hri]
      · simp [windowStep_recordIndex, hri]
      · simp [windowStep_records, hrec, hri]
      · simp [windowStep_totalRecords, htot]

theorem processFileLine_frel (P : LogParser) (F F' : Rec → Bool) (B A : Nat)
    (wi : Bool) (st st' : FileState) (line : String) (h : FRel st st') :
    FRel (processFileLine P F B A wi st line) (processFileLine P F' B A wi st' line) := by
  obtain ⟨hcur, hln, hidx, hri, hrec, htot⟩ := h
  have hb : FRel { st with lineNumber := st.lineNumber + 1 }
      { st' with lineNumber := st'.lineNumber + 1 } :=
    ⟨hcur, by simp [hln], hidx, hri, hrec, htot⟩
  unfold processFileLine
  by_cases hstart : isStart P line = true
  · rw [if_pos hstart, if_pos hstart]
    have hf := finalizeRecordFile_frel F F' B A wi _ _ hb
    obtain ⟨fcur, fln, fidx, fri, frec, ftot⟩ := hf
    exact ⟨congrArg (fun n => some (createRecord P line n)) fln, fln, fidx, fri, frec, ftot⟩
  · rw [if_neg hstart, if_neg hstart]
    cases hc : st.current with
    | none =>
        have hc' : st'.current = none := by rw [← hcur, hc]
        rw [hc']
        exact ⟨congrArg (fun n => some (createRecord P line n)) (by simp [hln]),
          by simp [hln], hidx, hri, hrec, htot⟩
    | some c =>
        have hc' : st'.current = some c := by rw [← hcur, hc]
        rw [hc']
        exact ⟨congrArg (fun n => some (appendLine c line n)) (by simp [hln]),
          by simp [hln], hidx, hri, hrec, htot⟩

theorem foldLines_frel (P : LogParser) (F F' : Rec → Bool) (B A : Nat)
    (wi : Bool) (lines : List String) (st st' : FileState) (h : FRel st st') :
    FRel (lines.foldl (processFileLine P F B A wi) st)
      (lines.foldl (processFileLine P F' B A wi) st') := by
  induction lines generalizing st st' with
  | nil => exact h
  | cons l ls ih => exact ih _ _ (processFileLine_frel P F F' B A wi st st' l h)

theorem processFile_frel (P : LogParser) (F F' : Rec → Bool) (B A : Nat)
    (wi : Bool) (m : MetaPayload) (lines : List String) :
    FRel (processFile P F B A wi m lines) (processFile P F' B A wi m lines) := by
  unfold processFile
  exact finalizeRecordFile_frel F F' B A wi _ _
    (foldLines_frel P F F' B A wi lines _ _ ⟨rfl, rfl, rfl, rfl, rfl, rfl⟩)

/-- **C7.**  With index writing enabled, the index is exactly the meta
line (type/source path/size/mtime/generation time) followed by one JSON
line per finalized record in finalization order — every record,
independently of the filter (the same index is written for any filter). -/
theorem claim_C7_index_write (P : LogParser) (F : Rec → Bool) (B A : Nat)
    (m : MetaPayload) (lines : List String) :
    ((processFile P F B A true m lines).indexLines
      = IndexLine.meta m
        :: (processFile P F B A true m lines).win.records.map
            (fun r => IndexLine.entry (serializeRecordForIndex r))) ∧
    ((processFile P F B A true m lines).win.records.length
      = (processFile P F B A true m lines).win.totalRecords) ∧
    (∀ F' : Rec → Bool,
      (processFile P F' B A true m lines).indexLines
        = (processFile P F B A true m lines).indexLines) :=
  ⟨processFile_indexShape P F B A m lines,
   processFile_totShape P F B A true m lines,
   fun F' => (processFile_frel P F' F B A true m lines).2.2.1⟩

/-! ## Index reader: malformed entries and blank lines -/

theorem processIndexLine_err (F : Rec → Bool) (B A : Nat) (path : String)
    (st : IdxState) (e : IndexError) (l : IndexLine) :
    processIndexLine F B A path (st, some e) l = (st, some e) := rfl

theorem processIndexLine_blank (F : Rec → Bool) (B A : Nat) (path : String)
    (st : IdxState) :
    processIndexLine F B A path (st, none) IndexLine.blank
      = ({ st with lineNumber := st.lineNumber + 1 }, none) := rfl

theorem processIndexLine_malformed (F : Rec → Bool) (B A : Nat) (path : String)
    (st : IdxState) :
    processIndexLine F B A path (st, none) IndexLine.malformed
      = ({ st with lineNumber := st.lineNumber + 1 },
          some ⟨path, st.lineNumber + 1⟩) := rfl

/-- Once the malformed-entry error is raised, the loop is aborted:
no further line changes the state. -/
theorem foldIdx_frozen (F : Rec → Bool) (B A : Nat) (path : String)
    (ls : List IndexLine) (st : IdxState) (e : IndexError) :
    ls.foldl (processIndexLine F B A path) (st, some e) = (st, some e) := by
  induction ls with
  | nil => rfl
  | cons l ls ih =>
      rw [List.foldl_cons, processIndexLine_err]
      exact ih

theorem processIndexLine_metaL (F : Rec → Bool) (B A : Nat) (path : String)
    (st : IdxState) (m : MetaPayload) :
    processIndexLine F B A path (st, none) (IndexLine.meta m)
      = ({ st with metaSeen := some m, lineNumber := st.lineNumber + 1 }, none) := rfl

theorem processIndexLine_entryL (F : Rec → Bool) (B A : Nat) (path : String)
    (st : IdxState) (p : IndexPayload) :
    processIndexLine F B A path (st, none) (IndexLine.entry p)
      = ({ st with
             win := (windowStep F B A false st.win (recordOfPayload p)).1,
             lineNumber := st.lineNumber + 1 }, none) := rfl

/-- Over a prefix free of malformed lines, no error is raised, and the
line counter advances by exactly one per line. -/
theorem foldIdx_clean (F : Rec → Bool) (B A : Nat) (path : String)
    (ls : List IndexLine) (st : IdxState)
    (h : ∀ l ∈ ls, l ≠ IndexLine.malformed) :
    (ls.foldl (processIndexLine F B A path) (st, none)).2 = none ∧
    (ls.foldl (processIndexLine F B A path) (st, none)).1.lineNumber
      = st.lineNumber + ls.length := by
  induction ls generalizing st with
  | nil => exact ⟨rfl, by simp⟩
  | cons l ls ih =>
      rw [List.foldl_cons]
      have htail : ∀ x ∈ ls, x ≠ IndexLine.malformed :=
        fun x hx => h x (List.mem_cons_of_mem _ hx)
      cases l with
      | blank =>
          rw [processIndexLine_blank]
          have hrec := ih { st with lineNumber := st.lineNumber + 1 } htail
          refine ⟨hrec.1, ?_⟩
          rw [hrec.2]
          show st.lineNumber + 1 + ls.length = st.lineNumber + (ls.length + 1)
          omega
      | malformed => exact absurd rfl (h IndexLine.malformed (List.mem_cons_self _ _))
      | meta m =>
          rw [processIndexLine_metaL]
          have hrec := ih { st with metaSeen := some m, lineNumber := st.lineNumber + 1 } htail
          refine ⟨hrec.1, ?_⟩
          rw [hrec.2]
          show st.lineNumber + 1 + ls.length = st.lineNumber + (ls.length + 1)
          omega
      | entry p =>
          rw [processIndexLine_entryL]
          have hrec := ih { st with
              win := (windowStep F B A false st.win (recordOfPayload p)).1,
              lineNumber := st.lineNumber + 1 } htail
          refine ⟨hrec.1, ?_⟩
          rw [hrec.2]
          show st.lineNumber + 1 + ls.length = st.lineNumber + (ls.length + 1)
          omega

/-- **C8.**  A non-empty index line that is not valid JSON is fatal: the
error identifies the index path and the 1-based line number of the
offending line, and the output already printed for earlier lines is
kept, not retracted. -/
theorem claim_C8_malformed_entry (F : Rec → Bool) (B A : Nat) (path : String)
    (pre post : List IndexLine) (hpre : ∀ l ∈ pre, l ≠ IndexLine.malformed) :
    (processIndex F B A path (pre ++ IndexLine.malformed :: post)).2
      = some ⟨path, pre.length + 1⟩ ∧
    (processIndex F B A path (pre ++ IndexLine.malformed :: post)).1.win.outputs
      = (processIndex F B A path pre).1.win.outputs := by
  obtain ⟨herr, hln⟩ := foldIdx_clean F B A path pre ⟨initWin, none, 0⟩ hpre
  unfold processIndex
  rw [List.foldl_append, List.foldl_cons]
  set acc := pre.foldl (processIndexLine F B A path) (⟨initWin, none, 0⟩, none) with hacc
  have hpair : acc = (acc.1, none) := by
    rw [← herr]
  rw [hpair, processIndexLine_malformed, foldIdx_frozen]
  constructor
  · show some (⟨path, acc.1.lineNumber + 1⟩ : IndexError) = some ⟨path, pre.length + 1⟩
    have hlnp : acc.1.lineNumber = pre.length := by
      rw [hln]
      show 0 + pre.length = pre.length
      omega
    rw [hlnp]
  · rfl

/-- Lock-step relation between a run that saw one extra blank line and
one that did not: same windowing state and captured meta line, the line
counter one ahead, and failure on one side exactly when on the other. -/
def BRel (a b : IdxState × Option IndexError) : Prop :=
  a.1.win = b.1.win ∧ a.1.metaSeen = b.1.metaSeen ∧
  ((a.2 = none ∧ b.2 = none ∧ a.1.lineNumber = b.1.lineNumber + 1)
    ∨ (a.2.isSome = true ∧ b.2.isSome = true))

theorem processIndexLine_brel (F : Rec → Bool) (B A : Nat) (path : String)
    (a b : IdxState × Option IndexError) (l : IndexLine) (h : BRel a b) :
    BRel (processIndexLine F B A path a l) (processIndexLine F B A path b l) := by
  obtain ⟨sa, ea⟩ := a
  obtain ⟨sb, eb⟩ := b
  obtain ⟨hwin, hmeta, hrest⟩ := h
  have hwin' : sa.win = sb.win := hwin
  have hmeta' : sa.metaSeen = sb.metaSeen := hmeta
  rcases hrest with ⟨ha, hb, hln⟩ | ⟨ha, hb⟩
  · have ha' : ea = none := ha
    have hb' : eb = none := hb
    have hln' : sa.lineNumber = sb.lineNumber + 1 := hln
    subst ha'
    subst hb'
    cases l with
    | blank =>
        rw [processIndexLine_blank, processIndexLine_blank]
        exact ⟨hwin', hmeta', Or.inl ⟨rfl, rfl, by show sa.lineNumber + 1 = sb.lineNumber + 1 + 1; omega⟩⟩
    | malformed =>
        rw [processIndexLine_malformed, processIndexLine_malformed]
        exact ⟨hwin', hmeta', Or.inr ⟨rfl, rfl⟩⟩
    | meta m =>
        rw [processIndexLine_metaL, processIndexLine_metaL]
        exact ⟨hwin', rfl, Or.inl ⟨rfl, rfl, by show sa.lineNumber + 1 = sb.lineNumber + 1 + 1; omega⟩⟩
    | entry p =>
        rw [processIndexLine_entryL, processIndexLine_entryL]
        refine ⟨?_, hmeta', Or.inl ⟨rfl, rfl, by show sa.lineNumber + 1 = sb.lineNumber + 1 + 1; omega⟩⟩
        show (windowStep F B A false sa.win (recordOfPayload p)).1
          = (windowStep F B A false sb.win (recordOfPayload p)).1
        rw [hwin']
  · cases hea : ea with
    | none =>
        rw [hea] at ha
        exact absurd ha (by simp)
    | some e =>
        cases heb : eb with
        | none =>
            rw [heb] at hb
            exact absurd hb (by simp)
        | some e' =>
            rw [processIndexLine_err, processIndexLine_err]
            exact ⟨hwin', hmeta', Or.inr ⟨rfl, rfl⟩⟩

theorem foldIdx_brel (F : Rec → Bool) (B A : Nat) (path : String)
    (ls : List IndexLine) (a b : IdxState × Option IndexError) (h : BRel a b) :
    BRel (ls.foldl (processIndexLine F B A path) a)
      (ls.foldl (processIndexLine F B A path) b) := by
  induction ls generalizing a b with
  | nil => exact h
  | cons l ls ih => exact ih _ _ (processIndexLine_brel F B A path a b l h)

/-- **C10.**  An empty index line is silently skipped: it produces no
record, leaves the whole windowing state (including the record
sequence) untouched, and raises no malformed-entry error. -/
theorem claim_C10_blank_lines (F : Rec → Bool) (B A : Nat) (path : String)
    (pre post : List IndexLine) :
    ((processIndex F B A path (pre ++ IndexLine.blank :: post)).1.win
        = (processIndex F B A path (pre ++ post)).1.win) ∧
    ((processIndex F B A path (pre ++ IndexLine.blank :: post)).1.metaSeen
        = (processIndex F B A path (pre ++ post)).1.metaSeen) ∧
    ((processIndex F B A path (pre ++ IndexLine.blank :: post)).2.isSome
        ↔ (processIndex F B A path (pre ++ post)).2.isSome) := by
  unfold processIndex
  rw [List.foldl_append, List.foldl_append, List.foldl_cons]
  set acc := pre.foldl (processIndexLine F B A path) (⟨initWin, none, 0⟩, none) with hacc
  rcases hae : acc.2 with _ | e
  · have hpair : acc = (acc.1, none) := by rw [← hae]
    have hstep : BRel (processIndexLine F B A path acc IndexLine.blank) acc := by
      rw [hpair, processIndexLine_blank]
      exact ⟨rfl, rfl, Or.inl ⟨rfl, rfl, rfl⟩⟩
    have hfold := foldIdx_brel F B A path post _ _ hstep
    obtain ⟨hwin, hmeta, hrest⟩ := hfold
    refine ⟨hwin, hmeta, ?_⟩
    rcases hrest with ⟨h1, h2, _⟩ | ⟨h1, h2⟩
    · simp [h1, h2]
    · simp [h1, h2]
  · have hpair : acc = (acc.1, some e) := by rw [← hae]
    rw [hpair, processIndexLine_err]
    exact ⟨rfl, rfl, Iff.rfl⟩

/-! ## Parity of the raw-scan and index paths: observational equivalence -/

/-- Equality on every record field the filter, the Printer and the
index serializer can observe (everything except the transient
`messageLines`, which the index path rebuilds differently but which
nothing downstream reads). -/
def ObsEqRec (a b : Rec) : Prop :=
  a.index = b.index ∧ a.startLine = b.startLine ∧ a.endLine = b.endLine ∧
  a.timestampRaw = b.timestampRaw ∧ a.timestampMs = b.timestampMs ∧
  a.level = b.level ∧ a.pid = b.pid ∧ a.thread = b.thread ∧
  a.location = b.location ∧ a.message = b.message ∧ a.lines = b.lines

theorem printerPayload_eq {a b : Rec} (h : ObsEqRec a b) :
    printerPayload a = printerPayload b := by
  obtain ⟨h1, h2, h3, h4, h5, h6, h7, h8, h9, h10, h11⟩ := h
  unfold printerPayload
  rw [h1, h2, h3, h4, h6, h8, h9, h10, h11]

theorem createFilter_respects (a : FilterArgs) {x y : Rec} (h : ObsEqRec x y) :
    createFilter a x = createFilter a y := by
  obtain ⟨h1, h2, h3, h4, h5, h6, h7, h8, h9, h10, h11⟩ := h
  unfold createFilter getText
  rw [h5, h6, h8, h11]

theorem serializeRecordForIndex_respects {x y : Rec} (h : ObsEqRec x y) :
    serializeRecordForIndex x = serializeRecordForIndex y := by
  obtain ⟨h1, h2, h3, h4, h5, h6, h7, h8, h9, h10, h11⟩ := h
  unfold serializeRecordForIndex
  rw [h1, h2, h3, h4, h5, h6, h7, h8, h9, h10, h11]

/-- `finalizeRecord`'s intake, in closed form. -/
theorem finalizeIntake_eq (jm : Bool) (r : Rec) (i : Nat) :
    finalizeIntake jm r i
      = { r with
            index := i,
            message :=
              if jm then
                (if r.messageLines.length > 0 then String.intercalate "\n" r.messageLines
                 else "")
              else r.message } := by
  cases jm <;> simp [finalizeIntake]

/-- Writing a finalized record to the index and reading it back loses
nothing the filter or the Printer can observe. -/
theorem roundtrip_obs (r : Rec) :
    ObsEqRec (recordOfPayload (serializeRecordForIndex r)) r := by
  refine ⟨rfl, rfl, rfl, ?_, rfl, rfl, rfl, rfl, rfl, rfl, rfl⟩
  show (serializeRecordForIndex r).pTimestampRaw.orElse (fun _ => none) = r.timestampRaw
  cases h : r.timestampRaw <;> simp [serializeRecordForIndex, h, Option.orElse]

/-- The record the index path finalizes (reconstruction followed by
index re-assignment) is observationally the record the raw path
finalized. -/
theorem intake_roundtrip (x : Rec) (k : Nat) (i : Nat) :
    ObsEqRec (finalizeIntake true x i)
      (finalizeIntake false
        (recordOfPayload (serializeRecordForIndex (finalizeIntake true x k))) i) := by
  simp only [finalizeIntake_eq]
  refine ⟨rfl, ?_, ?_, ?_, ?_, ?_, ?_, ?_, ?_, ?_, ?_⟩ <;>
    simp [recordOfPayload, serializeRecordForIndex]

/-- The finalized records of a run, given the incoming pre-records and
the starting record counter. -/
def intakeList (jm : Bool) : Nat → List Rec → List Rec
  | _, [] => []
  | i, r :: ts => finalizeIntake jm r (i + 1) :: intakeList jm (i + 1) ts

theorem forall₂_intake_roundtrip (rs : List Rec) :
    ∀ j, List.Forall₂
      (fun x y => ∀ i, ObsEqRec (finalizeIntake true x i) (finalizeIntake false y i))
      rs
      ((intakeList true j rs).map
        (fun r => recordOfPayload (serializeRecordForIndex r))) := by
  induction rs with
  | nil => intro j; exact List.Forall₂.nil
  | cons x xs ih =>
      intro j
      simp only [intakeList, List.map_cons]
      exact List.Forall₂.cons (fun i => intake_roundtrip x (j + 1) i) (ih (j + 1))

theorem map_printed_eq {l₁ l₂ : List (Role × Rec)}
    (h : List.Forall₂ (fun o p => o.1 = p.1 ∧ ObsEqRec o.2 p.2) l₁ l₂) :
    l₁.map (fun o => (o.1, printerPayload o.2))
      = l₂.map (fun o => (o.1, printerPayload o.2)) := by
  induction h with
  | nil => rfl
  | cons hpair htail ih =>
      simp only [List.map_cons, ih, hpair.1, printerPayload_eq hpair.2]

theorem phase3_matchCount (isM : Bool) (A : Nat) (st : WinState) :
    (phase3 isM A st).matchCount
      = if isM = true then st.matchCount + 1 else st.matchCount := by
  unfold phase3
  split
  · rfl
  · split <;> rfl

theorem windowStep_matchCount (F : Rec → Bool) (B A : Nat) (jm : Bool)
    (st : WinState) (r0 : Rec) :
    (windowStep F B A jm st r0).1.matchCount
      = if F (finalizeIntake jm r0 (st.recordIndex + 1))
        then st.matchCount + 1 else st.matchCount := by
  simp only [windowStep, phase4_matchCount, phase3_matchCount,
    phase2_matchCount, phase1_matchCount]

theorem windowStep_beforeBuffer (F : Rec → Bool) (B A : Nat) (jm : Bool)
    (st : WinState) (r0 : Rec) :
    (windowStep F B A jm st r0).1.beforeBuffer
      = if 0 < B then
          (if B < (st.beforeBuffer ++ [finalizeIntake jm r0 (st.recordIndex + 1)]).length
           then (st.beforeBuffer ++ [finalizeIntake jm r0 (st.recordIndex + 1)]).tail
           else st.beforeBuffer ++ [finalizeIntake jm r0 (st.recordIndex + 1)])
        else st.beforeBuffer := by
  have h3 : (phase3 (F (finalizeIntake jm r0 (st.recordIndex + 1))) A
      (phase2 (F (finalizeIntake jm r0 (st.recordIndex + 1)))
        (finalizeIntake jm r0 (st.recordIndex + 1))
        (phase1 (F (finalizeIntake jm r0 (st.recordIndex + 1))) B
          { st with recordIndex := st.recordIndex + 1,
                    totalRecords := st.totalRecords + 1 }))).beforeBuffer
      = st.beforeBuffer := by
    rw [phase3_beforeBuffer, phase2_beforeBuffer, phase1_beforeBuffer]
  simp only [windowStep]
  unfold phase4
  simp only [apply_ite WinState.beforeBuffer, h3]

theorem forall₂_tail {α β : Type} {R : α → β → Prop} {l₁ : List α} {l₂ : List β}
    (h : List.Forall₂ R l₁ l₂) : List.Forall₂ R l₁.tail l₂.tail := by
  cases h with
  | nil => exact List.Forall₂.nil
  | cons hpair htail => exact htail

/-- Lock-step relation between a raw-path window state and an
index-path window state. -/
def ObsEqSt (s t : WinState) : Prop :=
  List.Forall₂ ObsEqRec s.beforeBuffer t.beforeBuffer ∧
  s.afterCountdown = t.afterCountdown ∧
  s.recordIndex = t.recordIndex ∧
  s.totalRecords = t.totalRecords ∧
  s.matchCount = t.matchCount ∧
  s.printedSet = t.printedSet ∧
  List.Forall₂ (fun o p => o.1 = p.1 ∧ ObsEqRec o.2 p.2) s.outputs t.outputs ∧
  List.Forall₂ ObsEqRec s.records t.records

theorem obsEqSt_initWin : ObsEqSt initWin initWin :=
  ⟨List.Forall₂.nil, rfl, rfl, rfl, rfl, rfl, List.Forall₂.nil, List.Forall₂.nil⟩

theorem emitBeforeStep_sim (s t : WinState) (c c' : Rec) (hc : ObsEqRec c c')
    (hset : s.printedSet = t.printedSet)
    (hout : List.Forall₂ (fun o p => o.1 = p.1 ∧ ObsEqRec o.2 p.2) s.outputs t.outputs) :
    (emitBeforeStep s c).printedSet = (emitBeforeStep t c').printedSet ∧
    List.Forall₂ (fun o p => o.1 = p.1 ∧ ObsEqRec o.2 p.2)
      (emitBeforeStep s c).outputs (emitBeforeStep t c').outputs := by
  have hidx : c.index = c'.index := hc.1
  unfold emitBeforeStep
  rw [hidx, hset]
  by_cases hmem : c'.index ∈ t.printedSet
  · rw [if_pos hmem, if_pos hmem]
    exact ⟨hset, hout⟩
  · rw [if_neg hmem, if_neg hmem]
    refine ⟨rfl, ?_⟩
    exact List.rel_append hout
      (List.Forall₂.cons ⟨rfl, hc⟩ List.Forall₂.nil)

theorem emitBeforeFold_sim (cs cs' : List Rec)
    (hcs : List.Forall₂ ObsEqRec cs cs') :
    ∀ (s t : WinState), s.printedSet = t.printedSet →
    List.Forall₂ (fun o p => o.1 = p.1 ∧ ObsEqRec o.2 p.2) s.outputs t.outputs →
    (cs.foldl emitBeforeStep s).printedSet = (cs'.foldl emitBeforeStep t).printedSet ∧
    List.Forall₂ (fun o p => o.1 = p.1 ∧ ObsEqRec o.2 p.2)
      (cs.foldl emitBeforeStep s).outputs (cs'.foldl emitBeforeStep t).outputs := by
  induction hcs with
  | nil => intro s t hset hout; exact ⟨hset, hout⟩
  | cons hpair htail ih =>
      intro s t hset hout
      rw [List.foldl_cons, List.foldl_cons]
      have hstep := emitBeforeStep_sim s t _ _ hpair hset hout
      exact ih _ _ hstep.1 hstep.2

theorem phase12_sim (F : Rec → Bool) (B : Nat) (isM : Bool)
    (ra rb : Rec) (hab : ObsEqRec ra rb) (s1 t1 : WinState)
    (hbuf : List.Forall₂ ObsEqRec s1.beforeBuffer t1.beforeBuffer)
    (hcd : s1.afterCountdown = t1.afterCountdown)
    (hset : s1.printedSet = t1.printedSet)
    (hout : List.Forall₂ (fun o p => o.1 = p.1 ∧ ObsEqRec o.2 p.2) s1.outputs t1.outputs) :
    (phase2 isM ra (phase1 isM B s1)).printedSet
      = (phase2 isM rb (phase1 isM B t1)).printedSet ∧
    List.Forall₂ (fun o p => o.1 = p.1 ∧ ObsEqRec o.2 p.2)
      (phase2 isM ra (phase1 isM B s1)).outputs
      (phase2 isM rb (phase1 isM B t1)).outputs := by
  have h1 : (phase1 isM B s1).printedSet = (phase1 isM B t1).printedSet ∧
      List.Forall₂ (fun o p => o.1 = p.1 ∧ ObsEqRec o.2 p.2)
        (phase1 isM B s1).outputs (phase1 isM B t1).outputs := by
    unfold phase1
    by_cases hC : isM = true ∧ 0 < B
    · rw [if_pos hC, if_pos hC]
      exact emitBeforeFold_sim _ _ hbuf s1 t1 hset hout
    · rw [if_neg hC, if_neg hC]
      exact ⟨hset, hout⟩
  obtain ⟨h1set, h1out⟩ := h1
  have h1cd : (phase1 isM B s1).afterCountdown = (phase1 isM B t1).afterCountdown := by
    rw [phase1_afterCountdown, phase1_afterCountdown, hcd]
  have hidx : ra.index = rb.index := hab.1
  unfold phase2
  rw [hidx, h1set, h1cd]
  by_cases hC2 : (isM = true ∨ (isM = false ∧ 0 < (phase1 isM B t1).afterCountdown))
      ∧ rb.index ∉ (phase1 isM B t1).printedSet
  · rw [if_pos hC2, if_pos hC2]
    exact ⟨rfl, List.rel_append h1out (List.Forall₂.cons ⟨rfl, hab⟩ List.Forall₂.nil)⟩
  · rw [if_neg hC2, if_neg hC2]
    exact ⟨h1set, h1out⟩

theorem windowStep_sim (F : Rec → Bool) (hF : ∀ a b, ObsEqRec a b → F a = F b)
    (B A : Nat) (jm₁ jm₂ : Bool) (s t : WinState) (r₁ r₂ : Rec)
    (hst : ObsEqSt s t)
    (hr : ∀ i, ObsEqRec (finalizeIntake jm₁ r₁ i) (finalizeIntake jm₂ r₂ i)) :
    ObsEqSt (windowStep F B A jm₁ s r₁).1 (windowStep F B A jm₂ t r₂).1 := by
  obtain ⟨hbuf, hcd, hri, htot, hmc, hset, hout, hrec⟩ := hst
  set ra := finalizeIntake jm₁ r₁ (s.recordIndex + 1) with hra
  set rb := finalizeIntake jm₂ r₂ (t.recordIndex + 1) with hrb
  have hab : ObsEqRec ra rb := by
    rw [hra, hrb, hri]
    exact hr (t.recordIndex + 1)
  have hFab : F ra = F rb := hF _ _ hab
  have h12 := phase12_sim F B (F rb) ra rb hab
    { s with recordIndex := s.recordIndex + 1, totalRecords := s.totalRecords + 1 }
    { t with recordIndex := t.recordIndex + 1, totalRecords := t.totalRecords + 1 }
    hbuf hcd hset hout
  refine ⟨?_, ?_, ?_, ?_, ?_, ?_, ?_, ?_⟩
  · rw [windowStep_beforeBuffer, windowStep_beforeBuffer, ← hra, ← hrb]
    have happ : List.Forall₂ ObsEqRec (s.beforeBuffer ++ [ra]) (t.beforeBuffer ++ [rb]) :=
      List.rel_append hbuf (List.Forall₂.cons hab List.Forall₂.nil)
    have hlen : (s.beforeBuffer ++ [ra]).length = (t.beforeBuffer ++ [rb]).length :=
      happ.length_eq
    by_cases hB : 0 < B
    · rw [if_pos hB, if_pos hB, hlen]
      by_cases hl : B < (t.beforeBuffer ++ [rb]).length
      · rw [if_pos hl, if_pos hl]
        exact forall₂_tail happ
      · rw [if_neg hl, if_neg hl]
        exact happ
    · rw [if_neg hB, if_neg hB]
      exact hbuf
  · rw [windowStep_afterCountdown, windowStep_afterCountdown, ← hra, ← hrb, hFab, hcd]
  · rw [windowStep_recordIndex, windowStep_recordIndex, hri]
  · rw [windowStep_totalRecords, windowStep_totalRecords, htot]
  · rw [windowStep_matchCount, windowStep_matchCount, ← hra, ← hrb, hFab, hmc]
  · rw [windowStep_printedSet_eq, windowStep_printedSet_eq, ← hra, ← hrb, hFab]
    exact h12.1
  · rw [windowStep_outputs_eq, windowStep_outputs_eq, ← hra, ← hrb, hFab]
    exact h12.2
  · rw [windowStep_records, windowStep_records, ← hra, ← hrb]
    exact List.rel_append hrec (List.Forall₂.cons hab List.Forall₂.nil)

theorem windowFoldJ_sim (F : Rec → Bool) (hF : ∀ a b, ObsEqRec a b → F a = F b)
    (B A : Nat) (jm₁ jm₂ : Bool) (rs₁ rs₂ : List Rec)
    (hrs : List.Forall₂
      (fun x y => ∀ i, ObsEqRec (finalizeIntake jm₁ x i) (finalizeIntake jm₂ y i))
      rs₁ rs₂) :
    ∀ (s t : WinState), ObsEqSt s t →
      ObsEqSt (windowFoldJ F B A jm₁ s rs₁) (windowFoldJ F B A jm₂ t rs₂) := by
  induction hrs with
  | nil => intro s t h; exact h
  | cons hpair htail ih =>
      intro s t h
      rw [windowFoldJ_cons, windowFoldJ_cons]
      exact ih _ _ (windowStep_sim F hF B A jm₁ jm₂ s t _ _ h hpair)

/-! ## Staging the raw scan: assemble, then window -/

/-- The pre-records (`finalizeRecord` arguments) produced by the scan
loop of `processFile`, in finalization order. -/
def assembleRecs (P : LogParser) : Option Rec → Nat → List String → List Rec
  | cur, _, [] => cur.toList
  | cur, ln, line :: rest =>
      if isStart P line then
        cur.toList ++ assembleRecs P (some (createRecord P line (ln + 1))) (ln + 1) rest
      else
        match cur with
        | some c => assembleRecs P (some (appendLine c line (ln + 1))) (ln + 1) rest
        | none => assembleRecs P (some (createRecord P line (ln + 1))) (ln + 1) rest

theorem finalizeRecordFile_win (F : Rec → Bool) (B A : Nat) (wi : Bool)
    (st : FileState) :
    (finalizeRecordFile F B A wi st).win
      = windowFoldJ F B A true st.win st.current.toList := by
  cases hcur : st.current with
  | none => simp [finalizeRecordFile, hcur, windowFoldJ]
  | some c => simp [finalizeRecordFile, hcur, windowFoldJ]

theorem processFileLine_start_none (P : LogParser) (F : Rec → Bool) (B A : Nat)
    (wi : Bool) (st : FileState) (line : String)
    (hstart : isStart P line = true) (hcur : st.current = none) :
    processFileLine P F B A wi st line
      = { st with lineNumber := st.lineNumber + 1,
                  current := some (createRecord P line (st.lineNumber + 1)) } := by
  unfold processFileLine finalizeRecordFile
  rw [if_pos hstart]
  simp [hcur]

theorem processFileLine_start_some (P : LogParser) (F : Rec → Bool) (B A : Nat)
    (wi : Bool) (st : FileState) (line : String) (c : Rec)
    (hstart : isStart P line = true) (hcur : st.current = some c) :
    processFileLine P F B A wi st line
      = { st with
            lineNumber := st.lineNumber + 1,
            win := (windowStep F B A true st.win c).1,
            current := some (createRecord P line (st.lineNumber + 1)),
            indexLines :=
              if wi then
                st.indexLines
                  ++ [IndexLine.entry (serializeRecordForIndex (windowStep F B A true st.win c).2)]
              else st.indexLines } := by
  unfold processFileLine finalizeRecordFile
  rw [if_pos hstart]
  simp [hcur]

theorem processFileLine_cont_some (P : LogParser) (F : Rec → Bool) (B A : Nat)
    (wi : Bool) (st : FileState) (line : String) (c : Rec)
    (hstart : isStart P line = false) (hcur : st.current = some c) :
    processFileLine P F B A wi st line
      = { st with lineNumber := st.lineNumber + 1,
                  current := some (appendLine c line (st.lineNumber + 1)) } := by
  unfold processFileLine
  rw [if_neg (by simp [hstart])]
  simp [hcur]

theorem processFileLine_cont_none (P : LogParser) (F : Rec → Bool) (B A : Nat)
    (wi : Bool) (st : FileState) (line : String)
    (hstart : isStart P line = false) (hcur : st.current = none) :
    processFileLine P F B A wi st line
      = { st with lineNumber := st.lineNumber + 1,
                  current := some (createRecord P line (st.lineNumber + 1)) } := by
  unfold processFileLine
  rw [if_neg (by simp [hstart])]
  simp [hcur]

theorem assembleRecs_cons (P : LogParser) (cur : Option Rec) (ln : Nat)
    (line : String) (rest : List String) :
    assembleRecs P cur ln (line :: rest)
      = if isStart P line then
          cur.toList ++ assembleRecs P (some (createRecord P line (ln + 1))) (ln + 1) rest
        else
          match cur with
          | some c => assembleRecs P (some (appendLine c line (ln + 1))) (ln + 1) rest
          | none => assembleRecs P (some (createRecord P line (ln + 1))) (ln + 1) rest := rfl

/-- The interleaved scan loop of `processFile` equals assembling the
record list first and then folding the shared windowing over it. -/
theorem processFile_staged (P : LogParser) (F : Rec → Bool) (B A : Nat)
    (wi : Bool) (lines : List String) :
    ∀ (st : FileState),
      (finalizeRecordFile F B A wi (lines.foldl (processFileLine P F B A wi) st)).win
        = windowFoldJ F B A true st.win (assembleRecs P st.current st.lineNumber lines) := by
  induction lines with
  | nil =>
      intro st
      rw [List.foldl_nil, finalizeRecordFile_win]
      rfl
  | cons line rest ih =>
      intro st
      rw [List.foldl_cons]
      by_cases hstart : isStart P line = true
      · cases hcur : st.current with
        | none =>
            rw [processFileLine_start_none P F B A wi st line hstart hcur, ih]
            show windowFoldJ F B A true st.win
                (assembleRecs P (some (createRecord P line (st.lineNumber + 1)))
                  (st.lineNumber + 1) rest) = _
            rw [assembleRecs_cons, if_pos hstart]
            rfl
        | some c =>
            rw [processFileLine_start_some P F B A wi st line c hstart hcur, ih]
            show windowFoldJ F B A true (windowStep F B A true st.win c).1
                (assembleRecs P (some (createRecord P line (st.lineNumber + 1)))
                  (st.lineNumber + 1) rest) = _
            rw [assembleRecs_cons, if_pos hstart]
            rw [Option.toList_some, List.singleton_append, windowFoldJ_cons]
      · have hstart' : isStart P line = false := by simpa using hstart
        cases hcur : st.current with
        | none =>
            rw [processFileLine_cont_none P F B A wi st line hstart' hcur, ih]
            show windowFoldJ F B A true st.win
                (assembleRecs P (some (createRecord P line (st.lineNumber + 1)))
                  (st.lineNumber + 1) rest) = _
            rw [assembleRecs_cons, if_neg (by simp [hstart'])]
        | some c =>
            rw [processFileLine_cont_some P F B A wi st line c hstart' hcur, ih]
            show windowFoldJ F B A true st.win
                (assembleRecs P (some (appendLine c line (st.lineNumber + 1)))
                  (st.lineNumber + 1) rest) = _
            rw [assembleRecs_cons, if_neg (by simp [hstart'])]

theorem processFile_win_staged (P : LogParser) (F : Rec → Bool) (B A : Nat)
    (wi : Bool) (m : MetaPayload) (lines : List String) :
    (processFile P F B A wi m lines).win
      = windowFoldJ F B A true initWin (assembleRecs P none 0 lines) := by
  unfold processFile
  exact processFile_staged P F B A wi lines _

theorem windowFoldJ_records_eq (F : Rec → Bool) (B A : Nat) (jm : Bool)
    (rs : List Rec) : ∀ (st : WinState),
    (windowFoldJ F B A jm st rs).records
      = st.records ++ intakeList jm st.recordIndex rs := by
  induction rs with
  | nil => intro st; simp [windowFoldJ, intakeList]
  | cons r ts ih =>
      intro st
      rw [windowFoldJ_cons, ih, windowStep_records, windowStep_recordIndex]
      simp [intakeList]

theorem processFile_records (P : LogParser) (F : Rec → Bool) (B A : Nat)
    (m : MetaPayload) (lines : List String) :
    (processFile P F B A true m lines).win.records
      = intakeList true 0 (assembleRecs P none 0 lines) := by
  rw [processFile_win_staged, windowFoldJ_records_eq]
  rfl

theorem foldIdx_entries (F : Rec → Bool) (B A : Nat) (path : String)
    (ps : List IndexPayload) : ∀ (st : IdxState),
    ((ps.map IndexLine.entry).foldl (processIndexLine F B A path) (st, none)).1.win
      = windowFoldJ F B A false st.win (ps.map recordOfPayload) := by
  induction ps with
  | nil => intro st; rfl
  | cons p ts ih =>
      intro st
      rw [List.map_cons, List.foldl_cons, processIndexLine_entryL,
        List.map_cons, windowFoldJ_cons]
      exact ih _

/-- Reading back a well-formed index (meta line followed by entry lines)
runs the shared windowing over the reconstructed records, with no error. -/
theorem processIndex_entries (F : Rec → Bool) (B A : Nat) (path : String)
    (m : MetaPayload) (ps : List IndexPayload) :
    (processIndex F B A path (IndexLine.meta m :: ps.map IndexLine.entry)).1.win
      = windowFoldJ F B A false initWin (ps.map recordOfPayload) ∧
    (processIndex F B A path (IndexLine.meta m :: ps.map IndexLine.entry)).2 = none := by
  unfold processIndex
  rw [List.foldl_cons, processIndexLine_metaL]
  refine ⟨foldIdx_entries F B A path ps _, ?_⟩
  refine (foldIdx_clean F B A path (ps.map IndexLine.entry) _ ?_).1
  intro l hl
  obtain ⟨p, _, hp⟩ := List.mem_map.mp hl
  rw [← hp]
  intro hb
  exact IndexLine.noConfusion hb

/-- **C1.**  For every source file and any fixed filter arguments and
context counts, reading back an index built from the same file with the
same arguments emits the same (role, record) sequence — every field the
Printer renders agrees — as the raw scan, and the read-back raises no
error. -/
theorem claim_C1_parity (P : LogParser) (a : FilterArgs) (B A : Nat)
    (m : MetaPayload) (path : String) (lines : List String) :
    (processIndex (createFilter a) B A path
        (processFile P (createFilter a) B A true m lines).indexLines).2 = none ∧
    printedTrace (processIndex (createFilter a) B A path
        (processFile P (createFilter a) B A true m lines).indexLines).1.win
      = printedTrace (processFile P (createFilter a) B A true m lines).win := by
  have hshape := processFile_indexShape P (createFilter a) B A m lines
  unfold IndexShape at hshape
  rw [processFile_records P (createFilter a) B A m lines] at hshape
  have hmap : (intakeList true 0 (assembleRecs P none 0 lines)).map
        (fun r => IndexLine.entry (serializeRecordForIndex r))
      = ((intakeList true 0 (assembleRecs P none 0 lines)).map
          serializeRecordForIndex).map IndexLine.entry := by
    rw [List.map_map]
    rfl
  rw [hmap] at hshape
  have hent := processIndex_entries (createFilter a) B A path m
    ((intakeList true 0 (assembleRecs P none 0 lines)).map serializeRecordForIndex)
  rw [← hshape] at hent
  refine ⟨hent.2, ?_⟩
  have hmap2 : ((intakeList true 0 (assembleRecs P none 0 lines)).map
        serializeRecordForIndex).map recordOfPayload
      = (intakeList true 0 (assembleRecs P none 0 lines)).map
          (fun r => recordOfPayload (serializeRecordForIndex r)) := by
    rw [List.map_map]
    rfl
  have hsim := windowFoldJ_sim (createFilter a)
    (fun x y h => createFilter_respects a h) B A true false
    (assembleRecs P none 0 lines)
    ((intakeList true 0 (assembleRecs P none 0 lines)).map
      (fun r => recordOfPayload (serializeRecordForIndex r)))
    (forall₂_intake_roundtrip (assembleRecs P none 0 lines) 0)
    initWin initWin obsEqSt_initWin
  have houts := hsim.2.2.2.2.2.2.1
  rw [hent.1, hmap2, processFile_win_staged]
  unfold printedTrace
  exact (map_printed_eq houts).symm

/-! ## C9: the location/message separator search -/

/-- `findSubIdx` returns the index of the FIRST occurrence of the
needle: the needle matches at the returned index and at no earlier
index (JS `String.prototype.indexOf`). -/
theorem findSubIdx_first (n : List Char) :
    ∀ (h : List Char) (i : Nat), findSubIdx n h = some i →
      leadsWith n (h.drop i) = true ∧ ∀ j, j < i → leadsWith n (h.drop j) = false := by
  intro h
  induction h with
  | nil =>
      intro i hfi
      unfold findSubIdx at hfi
      by_cases hn : n.isEmpty
      · rw [if_pos hn] at hfi
        injection hfi with h0
        subst h0
        refine ⟨?_, fun j hj => absurd hj (by omega)⟩
        cases n with
        | nil => rfl
        | cons a as => exact Bool.noConfusion hn
      · rw [if_neg hn] at hfi
        cases hfi
  | cons c hs ih =>
      intro i hfi
      unfold findSubIdx at hfi
      by_cases hl : leadsWith n (c :: hs) = true
      · rw [if_pos hl] at hfi
        injection hfi with h0
        subst h0
        exact ⟨hl, fun j hj => absurd hj (by omega)⟩
      · rw [if_neg hl] at hfi
        cases hk : findSubIdx n hs with
        | none => rw [hk] at hfi; cases hfi
        | some k =>
            rw [hk] at hfi
            have hfi2 : some (k + 1) = some i := hfi
            injection hfi2 with h0
            subst h0
            obtain ⟨h1, h2⟩ := ih k hk
            refine ⟨h1, ?_⟩
            intro j hj
            cases j with
            | zero =>
                show leadsWith n (c :: hs) = false
                simpa using hl
            | succ j' =>
                show leadsWith n (hs.drop j') = false
                exact h2 j' (by omega)

/-- **C9, counterexample.**  The claim says that when neither separator
occurs, the ENTIRE trailing text becomes the location; the code instead
trims it: on trailing text `"boom "` (no separator) the location is the
trimmed `"boom"`, not the whole text `"boom "`. -/
theorem claim_C9_counterexample :
    splitLocationMessage "boom " = (some "boom", "") ∧
    splitLocationMessage "boom " ≠ (some "boom ", "") := by
  constructor
  · decide
  · decide

/-- **C9, amended.**  `splitLocationMessage` splits the header trailing
text at the FIRST occurrence of `" : "`; only when `" : "` is absent, at
the FIRST occurrence of `": "`; and when neither separator occurs the
whole trailing text, TRIMMED, becomes the location (`null` if blank) with
empty message.  (Location and message are trimmed in the separator cases
too, and a blank location becomes `null`.) -/
theorem claim_C9_amended (rest : String) (hne : rest ≠ "") :
    (containsSub rest " : " = false → containsSub rest ": " = false →
      splitLocationMessage rest
        = ((if trimStr rest = "" then none else some (trimStr rest)), "")) ∧
    (∀ i, findSubIdx (" : ").data rest.data = some i →
      (leadsWith (" : ").data (rest.data.drop i) = true ∧
       ∀ j, j < i → leadsWith (" : ").data (rest.data.drop j) = false) ∧
      splitLocationMessage rest
        = ((if trimStr (String.mk (rest.data.take i)) = "" then none
            else some (trimStr (String.mk (rest.data.take i)))),
           trimStr (String.mk (rest.data.drop (i + 3))))) ∧
    (containsSub rest " : " = false →
      ∀ i, findSubIdx (": ").data rest.data = some i →
      (leadsWith (": ").data (rest.data.drop i) = true ∧
       ∀ j, j < i → leadsWith (": ").data (rest.data.drop j) = false) ∧
      splitLocationMessage rest
        = ((if trimStr (String.mk (rest.data.take i)) = "" then none
            else some (trimStr (String.mk (rest.data.take i)))),
           trimStr (String.mk (rest.data.drop (i + 2))))) := by
  refine ⟨?_, ?_, ?_⟩
  · intro h3 h2
    unfold containsSub at h3 h2
    have hf3 : findSubIdx [' ', ':', ' '] rest.data = none := by
      cases hx : findSubIdx [' ', ':', ' '] rest.data with
      | none => rfl
      | some k =>
          have hx' : findSubIdx (" : ").data rest.data = some k := hx
          rw [hx'] at h3
          cases h3
    have hf2 : findSubIdx [':', ' '] rest.data = none := by
      cases hx : findSubIdx [':', ' '] rest.data with
      | none => rfl
      | some k =>
          have hx' : findSubIdx (": ").data rest.data = some k := hx
          rw [hx'] at h2
          cases h2
    simp only [splitLocationMessage, if_neg hne, hf3, hf2]
  · intro i hfi
    have hfi' : findSubIdx [' ', ':', ' '] rest.data = some i := hfi
    refine ⟨findSubIdx_first _ _ _ hfi, ?_⟩
    simp only [splitLocationMessage, if_neg hne, hfi']
  · intro h3 i hfi
    unfold containsSub at h3
    have hf3 : findSubIdx [' ', ':', ' '] rest.data = none := by
      cases hx : findSubIdx [' ', ':', ' '] rest.data with
      | none => rfl
      | some k =>
          have hx' : findSubIdx (" : ").data rest.data = some k := hx
          rw [hx'] at h3
          cases h3
    have hfi' : findSubIdx [':', ' '] rest.data = some i := hfi
    refine ⟨findSubIdx_first _ _ _ hfi, ?_⟩
    simp only [splitLocationMessage, if_neg hne, hf3, hfi']

theorem claim_C9_amended_witness :
    ("a : b" ≠ "" ∧ findSubIdx (" : ").data ("a : b").data = some 1) ∧
    ((leadsWith (" : ").data (("a : b").data.drop 1) = true ∧
      ∀ j, j < 1 → leadsWith (" : ").data (("a : b").data.drop j) = false) ∧
     splitLocationMessage "a : b"
       = ((if trimStr (String.mk (("a : b").data.take 1)) = "" then none
           else some (trimStr (String.mk (("a : b").data.take 1)))),
          trimStr (String.mk (("a : b").data.drop (1 + 3))))) :=
  ⟨⟨by decide, by decide⟩,
   (claim_C9_amended "a : b" (by decide)).2.1 1 (by decide)⟩

/-! ## Witnesses for the conditional claims -/

theorem claim_C4_role_precedence_witness :
    (0 < [(default : Rec)].length ∧
     matchAt (fun _ => true) false [(default : Rec)] 0 = true) ∧
    ((windowFoldJ (fun _ => true) 0 0 false initWin [(default : Rec)]).outputs.filter
        (fun o => decide ((o.2).index = 0 + 1))).all
      (fun o => decide (o.1 = Role.matched)) = true :=
  ⟨⟨by decide, rfl⟩,
   claim_C4_role_precedence (fun _ => true) 0 0 false [default] 0 (by decide) rfl⟩

theorem claim_C5_after_context_restart_witness :
    (0 < 1 ∧ 1 < 2 ∧ 2 < [(default : Rec), default, default].length ∧
     matchAt (fun _ => true) false [(default : Rec), default, default] 0 = true ∧
     matchAt (fun _ => true) false [(default : Rec), default, default] 2 = true ∧
     nonMatchBetween (fun _ => true) false [(default : Rec), default, default] 0 2 < 1) ∧
    ((windowFoldJ (fun _ => true) 0 1 false initWin
        [(default : Rec), default, default]).outputs.map
      (fun o => (o.2).index)).count (1 + 1) = 1 :=
  ⟨⟨by decide, by decide, by decide, rfl, rfl, by decide⟩,
   claim_C5_after_context_restart (fun _ => true) 0 1 false [default, default, default]
     0 2 1 (by decide) (by decide) (by decide) rfl rfl (by decide)⟩

theorem claim_C8_malformed_entry_witness :
    (∀ l ∈ ([] : List IndexLine), l ≠ IndexLine.malformed) ∧
    ((processIndex (fun _ => true) 0 0 "idx"
        (([] : List IndexLine) ++ IndexLine.malformed :: ([] : List IndexLine))).2
        = some ⟨"idx", ([] : List IndexLine).length + 1⟩ ∧
     (processIndex (fun _ => true) 0 0 "idx"
        (([] : List IndexLine) ++ IndexLine.malformed :: ([] : List IndexLine))).1.win.outputs
        = (processIndex (fun _ => true) 0 0 "idx" ([] : List IndexLine)).1.win.outputs) :=
  ⟨by simp,
   claim_C8_malformed_entry (fun _ => true) 0 0 "idx" [] [] (by simp)⟩
